import Mathlib

set_option maxRecDepth 8000

/-!
Verification development for the Djikstra-Calculation route server.

The repository is a small Express service: it loads a road graph (nodes with
coordinates, directed weighted adjacency lists), snaps query coordinates to the
nearest routable node with a haversine scan (`findNearestNode`), runs a
shortest-path search (`dijkstra` in the single-direction variants,
`bidirectionalDijkstra` in `src/unnamed/part_002`), and maps the resulting node
id path back to coordinates.  An auxiliary indoor/outdoor heuristic
(`detectIndoorFromGPS`, `analyzeWiFiNetworks`, `analyzeCellularNetwork`,
`comprehensiveIndoorDetection`) attaches advisory metadata to responses.

Modelling conventions, chosen to mirror the JavaScript source exactly:

* Node ids handled by the search are canonical strings (the route handler
  calls the search with `String(startNode)`, and JavaScript object keys are
  strings).  Raw ids from the data files may be numbers or strings; where the
  source distinguishes them (`String(node.id)`, truthiness of `excludeNodeId`)
  we model raw ids with the `JSId` type.
* JavaScript numbers are modelled as exact rationals, `Infinity` as `⊤` in
  `WithTop ℚ`.  Comparisons such as `minForward + minBackward >= bestDistance`
  translate literally; the empty string is the only falsy string value, so the
  guard `if (!current ...)` becomes a test against `""`.
* `Array.prototype.sort` is stable, so the sorted order by `dist` is the unique
  dist-ordered permutation preserving the relative order of ties; `sortQueue`
  (a stable insertion sort) computes exactly that permutation.
* The `while` loops run on fuel via a step function; the chosen fuel is an
  upper bound on the number of loop iterations the source can perform, so the
  fuelled run coincides with the run of the source loop.
* The haversine distance of a node to a query coordinate is abstracted as an
  arbitrary rational-valued oracle `d : JSNode → ℚ`; every statement about the
  locator is universally quantified over the oracle, so it covers the concrete
  trigonometric function of the source.
-/

namespace RouteServer

/-- Canonical (string) node identifier, the form used as a JavaScript object key. -/
abbrev NodeId := String

/-- One adjacency record `{node, weight}` of the edge data. -/
structure Edge where
  node : NodeId
  weight : ℚ
deriving DecidableEq

/-- The edge mapping `graphEdges`: source id to its ordered adjacency list.
JavaScript object key order is insertion order, which the backward scan of
`bidirectionalDijkstra` iterates, so the association list stays ordered; keys
are distinct, as object keys are. -/
abbrev Graph := List (NodeId × List Edge)

/-- Entry of one of the sort-then-shift priority queues: `{node, dist}`.  The
source only ever stores finite numbers; typing the field with `WithTop ℚ`
keeps the relaxation step total. -/
structure QEntry where
  node : NodeId
  dist : WithTop ℚ
deriving DecidableEq

/-- Lookup of `graph[n] || []`. -/
def adj (g : Graph) (n : NodeId) : List Edge :=
  match g.find? (fun p => p.1 = n) with
  | some p => p.2
  | none => []

/-- All ids initialised by the two distance-map loops of the searches: every
adjacency key and every edge destination. -/
def nodeIds (g : Graph) : List NodeId :=
  g.map (fun p => p.1) ++ g.flatMap (fun p => p.2.map (fun e => e.node))

/-- Total number of edge records in the graph. -/
def edgeCount (g : Graph) : Nat :=
  (g.map (fun p => p.2.length)).sum

/-- The target and weight pairs relaxed by the backward scan for the settled
node `cur`: for every edge record with destination `cur`, its source key and
its weight, in scan order. -/
def backPairs (g : Graph) (cur : NodeId) : List (NodeId × ℚ) :=
  g.flatMap (fun p => (p.2.filter (fun e => e.node = cur)).map (fun e => (p.1, e.weight)))

/-- Every weight of the graph is nonnegative (road-network weights are
traversal costs; the specification types them `weight ≥ 0`). -/
def NonnegWeights (g : Graph) : Prop :=
  ∀ p ∈ g, ∀ e ∈ p.2, 0 ≤ e.weight

/-- Stable insertion of a queue entry: the entry goes after existing entries
of smaller or equal dist and before the first strictly larger one. -/
def insertEntry (e : QEntry) : List QEntry → List QEntry
  | [] => [e]
  | x :: xs => if e.dist ≤ x.dist then e :: x :: xs else x :: insertEntry e xs

/-- Stable sort by ascending `dist`: the effect of
`queue.sort((a, b) => a.dist - b.dist)`. -/
def sortQueue : List QEntry → List QEntry
  | [] => []
  | x :: xs => insertEntry x (sortQueue xs)

/-- Tentative distance of the entry at index 0 of the (possibly unsorted)
queue array, `Infinity` when the array is empty: the quantity the stop check
of `bidirectionalDijkstra` reads as `queueForward[0].dist`. -/
def headDist : List QEntry → WithTop ℚ
  | [] => ⊤
  | e :: _ => e.dist

/-- True minimum tentative distance over the whole queue, `Infinity` when the
queue is empty: the frontier minimum the specification speaks about. -/
def minDist : List QEntry → WithTop ℚ
  | [] => ⊤
  | e :: q => min e.dist (minDist q)

/-- Search state of `bidirectionalDijkstra`: distance maps, predecessor maps,
visited sets (newest settled node first, mirroring `Set` insertion order),
queues, best candidate, meeting node and two instrumentation counters.
`done` records that the `while` loop has exited, by its condition or by the
`break`. -/
structure BDState where
  distF : NodeId → WithTop ℚ
  distB : NodeId → WithTop ℚ
  prevF : NodeId → Option NodeId
  prevB : NodeId → Option NodeId
  visitedF : List NodeId
  visitedB : List NodeId
  queueF : List QEntry
  queueB : List QEntry
  best : WithTop ℚ
  meeting : Option NodeId
  done : Bool
  pops : Nat
  relaxations : Nat

/-- State after the initialisation block: every initialised id holds
`Infinity` and `null`, then `distancesForward[start] = 0`,
`distancesBackward[end] = 0`, and the two singleton queues. -/
def initBD (start endId : NodeId) : BDState where
  distF := fun n => if n = start then 0 else ⊤
  distB := fun n => if n = endId then 0 else ⊤
  prevF := fun _ => none
  prevB := fun _ => none
  visitedF := []
  visitedB := []
  queueF := [⟨start, 0⟩]
  queueB := [⟨endId, 0⟩]
  best := ⊤
  meeting := none
  done := false
  pops := 0
  relaxations := 0

/-- Body of the forward relaxation loop over a list of adjacency records:
compute `alt = distancesForward[cur] + weight` and perform the conditional
distance update, predecessor update and push. -/
def relaxFAux (cur : NodeId) (l : List Edge) (st : BDState) : BDState :=
  l.foldl
    (fun s e =>
      let alt := s.distF cur + (e.weight : WithTop ℚ)
      if alt < s.distF e.node then
        { s with
          distF := fun n => if n = e.node then alt else s.distF n
          prevF := fun n => if n = e.node then some cur else s.prevF n
          queueF := s.queueF ++ [⟨e.node, alt⟩]
          relaxations := s.relaxations + 1 }
      else s)
    st

/-- Forward relaxation of the just settled node `cur`: fold over
`graph[cur] || []`. -/
def relaxF (g : Graph) (cur : NodeId) (st : BDState) : BDState :=
  relaxFAux cur (adj g cur) st

/-- Body of the backward relaxation for one adjacency list keyed by `src`:
relax every record whose destination is `cur`, from `src`. -/
def relaxBAux (cur src : NodeId) (l : List Edge) (st : BDState) : BDState :=
  l.foldl
    (fun s2 e =>
      if e.node = cur then
        let alt := s2.distB cur + (e.weight : WithTop ℚ)
        if alt < s2.distB src then
          { s2 with
            distB := fun n => if n = src then alt else s2.distB n
            prevB := fun n => if n = src then some cur else s2.prevB n
            queueB := s2.queueB ++ [⟨src, alt⟩]
            relaxations := s2.relaxations + 1 }
        else s2
      else s2)
    st

/-- Backward relaxation of the just settled node `cur`: the source has no
reverse index, so it scans every adjacency list of the graph and relaxes each
edge whose destination is `cur`, from that edge's source node. -/
def relaxB (g : Graph) (cur : NodeId) (st : BDState) : BDState :=
  g.foldl (fun s p => relaxBAux cur p.1 p.2 s) st

/-- One execution of the forward branch: sort the forward queue, shift its
minimum, skip it when falsy or already visited, otherwise settle it, record a
meeting candidate when the backward search has visited it, and relax its
outgoing edges. -/
def stepForward (g : Graph) (st : BDState) : BDState :=
  match sortQueue st.queueF with
  | [] => st
  | c :: rest =>
    let cur := c.node
    if cur = "" ∨ cur ∈ st.visitedF then
      { st with queueF := rest, pops := st.pops + 1 }
    else
      let st1 := { st with queueF := rest, visitedF := cur :: st.visitedF,
                           pops := st.pops + 1 }
      let st2 :=
        if cur ∈ st1.visitedB then
          let tot := st1.distF cur + st1.distB cur
          if tot < st1.best then { st1 with best := tot, meeting := some cur }
          else st1
        else st1
      relaxF g cur st2

/-- One execution of the backward branch, mirroring `stepForward` with the
full-scan backward relaxation. -/
def stepBackward (g : Graph) (st : BDState) : BDState :=
  match sortQueue st.queueB with
  | [] => st
  | c :: rest =>
    let cur := c.node
    if cur = "" ∨ cur ∈ st.visitedB then
      { st with queueB := rest, pops := st.pops + 1 }
    else
      let st1 := { st with queueB := rest, visitedB := cur :: st.visitedB,
                           pops := st.pops + 1 }
      let st2 :=
        if cur ∈ st1.visitedF then
          let tot := st1.distF cur + st1.distB cur
          if tot < st1.best then { st1 with best := tot, meeting := some cur }
          else st1
        else st1
      relaxB g cur st2

/-- One iteration of the main `while` loop: exit when both queues are empty,
break when `minForward + minBackward >= bestDistance` where the minima are the
`[0]` elements of the arrays, advance forward when the forward queue is
nonempty and its head is not larger, otherwise advance backward.  The final
fallback is unreachable: when only the forward queue is nonempty its head
compares `≤ ⊤`. -/
def stepBD (g : Graph) (st : BDState) : BDState :=
  if st.done then st
  else if st.queueF = [] ∧ st.queueB = [] then { st with done := true }
  else if st.best ≤ headDist st.queueF + headDist st.queueB then
    { st with done := true }
  else if st.queueF ≠ [] ∧ headDist st.queueF ≤ headDist st.queueB then
    stepForward g st
  else if st.queueB ≠ [] then stepBackward g st
  else st

/-- Fuelled iteration of `stepBD`. -/
def stepNBD (g : Graph) : Nat → BDState → BDState
  | 0, st => st
  | n + 1, st => stepNBD g n (stepBD g st)

/-- Value of `prevMap[u]` coerced to the sentinel `""` when `null`: both
`null` and `""` are falsy, so the reconstruction loops stop on either. -/
def prevStr (prev : NodeId → Option NodeId) (u : NodeId) : NodeId :=
  match prev u with
  | some p => p
  | none => ""

/-- The `while (u) { path.unshift(u); u = prevMap[u]; }` reconstruction: the
produced list ends with the starting `u` and walks predecessors to the front. -/
def chainUp (prev : NodeId → Option NodeId) : Nat → NodeId → List NodeId
  | 0, _ => []
  | fuel + 1, u => if u = "" then [] else chainUp prev fuel (prevStr prev u) ++ [u]

/-- The `while (u) { path.push(u); u = prevMap[u]; }` reconstruction used for
the backward half: the produced list starts with `u`. -/
def chainDown (prev : NodeId → Option NodeId) : Nat → NodeId → List NodeId
  | 0, _ => []
  | fuel + 1, u => if u = "" then [] else u :: chainDown prev fuel (prevStr prev u)

/-- Result record `{path, distance}` of either search. -/
structure BDResult where
  path : List NodeId
  distance : WithTop ℚ
deriving DecidableEq

/-- Path reconstruction of `bidirectionalDijkstra`: forward chain down to the
meeting node, then the backward chain starting at the backward predecessor of
the meeting node. -/
def extractPath (st : BDState) : List NodeId :=
  match st.meeting with
  | none => []
  | some m =>
    chainUp st.prevF (st.visitedF.length + 1) m ++
      chainDown st.prevB (st.visitedB.length + 1) (prevStr st.prevB m)

/-- Remaining forward relaxation capacity: total outgoing degree of the nodes
the forward search has not yet settled. -/
def outBudget (g : Graph) (vis : List NodeId) : Nat :=
  (((nodeIds g).dedup.filter (fun u => u ∉ vis)).map (fun u => (adj g u).length)).sum

/-- Remaining backward relaxation capacity: total matching-record count of the
nodes the backward search has not yet settled. -/
def inBudget (g : Graph) (vis : List NodeId) : Nat :=
  (((nodeIds g).dedup.filter (fun u => u ∉ vis)).map
    (fun u => (backPairs g u).length)).sum

/-- Termination measure of the main loop: every live iteration shifts one
queue entry and pushes at most the relaxation capacity it spends. -/
def bdMeasure (g : Graph) (st : BDState) : Nat :=
  st.queueF.length + st.queueB.length + outBudget g st.visitedF +
    inBudget g st.visitedB

/-- Fuel bound for the main loop, strictly above the measure of the initial
state, hence an upper bound on the number of iterations the source loop can
perform (`bidiRun_done`). -/
def bidiFuel (g : Graph) : Nat := outBudget g [] + inBudget g [] + 3

/-- Final loop state of `bidirectionalDijkstra` for a query that passes the
early-return checks. -/
def bidiFinal (g : Graph) (s e : NodeId) : BDState :=
  stepNBD g (bidiFuel g) (initBD s e)

/-- The `bidirectionalDijkstra(graph, start, end)` function of
`src/unnamed/part_002`: same-node early return, validity check of the two
endpoints against the initialised ids, the bidirectional loop, and path
reconstruction when a meeting node was established. -/
def bidirectionalDijkstra (g : Graph) (s e : NodeId) : BDResult :=
  if s = e then ⟨[s], 0⟩
  else if s ∈ nodeIds g ∧ e ∈ nodeIds g then
    let st := bidiFinal g s e
    if st.meeting.isSome then ⟨extractPath st, st.best⟩ else ⟨[], ⊤⟩
  else ⟨[], ⊤⟩

/-- Number of queue shifts and of successful relaxations performed by a call
of `bidirectionalDijkstra`: zero without entering the loop, otherwise the
counters of the final state. -/
def bidiSearchStats (g : Graph) (s e : NodeId) : Nat × Nat :=
  if s = e then (0, 0)
  else if s ∈ nodeIds g ∧ e ∈ nodeIds g then
    ((bidiFinal g s e).pops, (bidiFinal g s e).relaxations)
  else (0, 0)

/-- Search state of the single-direction `dijkstra` of `src/unnamed/part_001`
and `src/index.js` (the two files contain the same function). -/
structure DState where
  dist : NodeId → WithTop ℚ
  prev : NodeId → Option NodeId
  visited : List NodeId
  queue : List QEntry
  done : Bool
  pops : Nat

/-- Initial single-direction state: `distances[start] = 0` and the singleton
queue. -/
def initD (start : NodeId) : DState where
  dist := fun n => if n = start then 0 else ⊤
  prev := fun _ => none
  visited := []
  queue := [⟨start, 0⟩]
  done := false
  pops := 0

/-- Relaxation of the settled node `cur` in the single-direction search. -/
def relaxD (g : Graph) (cur : NodeId) (st : DState) : DState :=
  (adj g cur).foldl
    (fun s e =>
      let alt := s.dist cur + (e.weight : WithTop ℚ)
      if alt < s.dist e.node then
        { s with
          dist := fun n => if n = e.node then alt else s.dist n
          prev := fun n => if n = e.node then some cur else s.prev n
          queue := s.queue ++ [⟨e.node, alt⟩] }
      else s)
    st

/-- One iteration of the `dijkstra` loop: exit when the queue is empty, sort
and shift, skip falsy or visited nodes, settle, break after settling `end`,
otherwise relax the neighbours. -/
def stepD (g : Graph) (endId : NodeId) (st : DState) : DState :=
  if st.done then st
  else
    match sortQueue st.queue with
    | [] => { st with done := true }
    | c :: rest =>
      let cur := c.node
      if cur = "" ∨ cur ∈ st.visited then
        { st with queue := rest, pops := st.pops + 1 }
      else if cur = endId then
        { st with queue := rest, visited := cur :: st.visited, done := true,
                  pops := st.pops + 1 }
      else
        relaxD g cur
          { st with queue := rest, visited := cur :: st.visited,
                    pops := st.pops + 1 }

/-- Fuelled iteration of `stepD`. -/
def stepND (g : Graph) (endId : NodeId) : Nat → DState → DState
  | 0, st => st
  | n + 1, st => stepND g endId n (stepD g endId st)

/-- Fuel bound for the single-direction loop. -/
def dijkstraFuel (g : Graph) : Nat := edgeCount g + 2

/-- The corrected `dijkstra(graph, start, end)` of `src/unnamed/part_001` and
`src/index.js`: same-node early return, start validity check, main loop, and
reconstruction guarded by `prev[end] !== null || end === start` followed by
the `path[0] !== start` rejection.  An uninitialised `end` enters the
reconstruction loop in the source (`undefined !== null`) but is then rejected
by the `path[0]` check, so flattening `undefined` and `null` into `none`
yields the same results. -/
def dijkstra (g : Graph) (s e : NodeId) : BDResult :=
  if s = e then ⟨[s], 0⟩
  else if s ∈ nodeIds g then
    let st := stepND g e (dijkstraFuel g) (initD s)
    let path :=
      if (st.prev e).isSome ∨ e = s then chainUp st.prev (st.visited.length + 1) e
      else []
    if path.head? = some s then ⟨path, st.dist e⟩ else ⟨[], ⊤⟩
  else ⟨[], ⊤⟩

/-- Queue shifts performed by a `dijkstra` call. -/
def dijkstraSearchStats (g : Graph) (s e : NodeId) : Nat :=
  if s = e then 0
  else if s ∈ nodeIds g then (stepND g e (dijkstraFuel g) (initD s)).pops
  else 0

/-- A directed edge of the graph from `a` to `b` of weight `w`: some adjacency
list keyed by `a` contains the record `{node := b, weight := w}`. -/
def EdgeFrom (g : Graph) (a b : NodeId) (w : ℚ) : Prop :=
  ∃ l, (a, l) ∈ g ∧ (⟨b, w⟩ : Edge) ∈ l

/-- A node sequence together with a total cost such that every consecutive
pair is a real directed edge of the graph and the costs of the chosen edges
sum to the total. -/
inductive WalkCost (g : Graph) : List NodeId → ℚ → Prop
  | single (a : NodeId) : WalkCost g [a] 0
  | cons {a b : NodeId} {w c : ℚ} {rest : List NodeId} :
      EdgeFrom g a b w → WalkCost g (b :: rest) c → WalkCost g (a :: b :: rest) (w + c)

/-- Projection of one direction of the search state: the components the
per-direction invariant speaks about. -/
structure DirState where
  dist : NodeId → WithTop ℚ
  prev : NodeId → Option NodeId
  visited : List NodeId
  queue : List QEntry

/-- Forward components of a bidirectional state. -/
def projF (st : BDState) : DirState :=
  ⟨st.distF, st.prevF, st.visitedF, st.queueF⟩

/-- Backward components of a bidirectional state. -/
def projB (st : BDState) : DirState :=
  ⟨st.distB, st.prevB, st.visitedB, st.queueB⟩

/-- One relaxation as performed by the source, on one direction: compute
`alt = dist[cur] + w`, and on improvement update the distance and predecessor
of the target and push an entry. -/
def relaxOne (cur tgt : NodeId) (w : ℚ) (d : DirState) : DirState :=
  let alt := d.dist cur + (w : WithTop ℚ)
  if alt < d.dist tgt then
    ⟨fun n => if n = tgt then alt else d.dist n,
     fun n => if n = tgt then some cur else d.prev n,
     d.visited, d.queue ++ [⟨tgt, alt⟩]⟩
  else d

/-- Sequence of relaxations from the settled node `cur`, in list order. -/
def relaxMany (cur : NodeId) (l : List (NodeId × ℚ)) (d : DirState) : DirState :=
  l.foldl (fun d p => relaxOne cur p.1 p.2 d) d

/-- A node sequence whose consecutive pairs are linked by the relation `E`
(carrying a weight), with the weights summing to the given total. -/
inductive RelWalk (E : NodeId → NodeId → ℚ → Prop) : List NodeId → ℚ → Prop
  | single (a : NodeId) : RelWalk E [a] 0
  | cons {a b : NodeId} {w c : ℚ} {rest : List NodeId} :
      E a b w → RelWalk E (b :: rest) c → RelWalk E (a :: b :: rest) (w + c)

/-- Invariant of one search direction.  `E p u w` reads: the settled node `u`
was reached from its predecessor `p` through an edge of weight `w` (for the
forward direction an edge `p → u`, for the backward direction an edge
`u → p`); `r` is the root of the direction (`start` forward, `end` backward).
The `visited` list holds the settled nodes newest first. -/
structure DirInv (E : NodeId → NodeId → ℚ → Prop) (r : NodeId) (d : DirState) :
    Prop where
  vnodup : d.visited.Nodup
  vne : ∀ u ∈ d.visited, u ≠ ""
  vfin : ∀ u ∈ d.visited, d.dist u ≠ ⊤
  vmono : d.visited.Pairwise (fun a b => d.dist b ≤ d.dist a)
  root : ∀ u ∈ d.visited, d.prev u = none → u = r
  distRoot : d.dist r = 0
  nonneg : ∀ x, 0 ≤ d.dist x
  chain : ∀ u ∈ d.visited, ∀ p, d.prev u = some p →
    (∃ l₁ l₂, d.visited = l₁ ++ u :: l₂ ∧ p ∈ l₂) ∧
      ∃ w, E p u w ∧ d.dist u = d.dist p + (w : WithTop ℚ)
  pend : ∀ n, n ∉ d.visited → ∀ p, d.prev n = some p →
    p ∈ d.visited ∧ ∃ w, E p n w ∧ d.dist n = d.dist p + (w : WithTop ℚ)
  pendNone : ∀ n, n ∉ d.visited → d.prev n = none → n ≠ r → d.dist n = ⊤
  qbound : ∀ q ∈ d.queue, d.dist q.node ≤ q.dist
  qfin : ∀ q ∈ d.queue, q.dist ≠ ⊤
  qwit : ∀ n, n ∉ d.visited → n ≠ "" → d.dist n ≠ ⊤ →
    ∃ q ∈ d.queue, q.node = n ∧ q.dist = d.dist n
  vq : ∀ u ∈ d.visited, ∀ q ∈ d.queue, d.dist u ≤ q.dist

/-- Forward link: the settled node `u` was reached through an edge `p → u`. -/
def LinkF (g : Graph) (p u : NodeId) (w : ℚ) : Prop := EdgeFrom g p u w

/-- Backward link: the settled node `u` was reached through an edge `u → p`. -/
def LinkB (g : Graph) (p u : NodeId) (w : ℚ) : Prop := EdgeFrom g u p w

/-- Full invariant of the bidirectional loop state: both directions are sound
and the best candidate is the sum of the two final distances of a doubly
settled meeting node, bounded by every cross pair of queue entries. -/
structure BDInv (g : Graph) (s e : NodeId) (st : BDState) : Prop where
  dirF : DirInv (LinkF g) s (projF st)
  dirB : DirInv (LinkB g) e (projB st)
  meetSome : ∀ m, st.meeting = some m →
    m ∈ st.visitedF ∧ m ∈ st.visitedB ∧ st.best = st.distF m + st.distB m
  meetNone : st.meeting = none → st.best = ⊤
  bestPair : st.best ≠ ⊤ →
    ∀ qf ∈ st.queueF, ∀ qb ∈ st.queueB, st.best ≤ qf.dist + qb.dist

/-- Raw node identifier as found in the downloaded data: a JSON value that may
be a number or a string.  `null` is represented by `Option` at use sites. -/
inductive JSId where
  | str (s : String)
  | num (n : Int)
deriving DecidableEq

/-- The `String(id)` coercion. -/
def jsIdStr : JSId → String
  | .str s => s
  | .num n => toString n

/-- JavaScript truthiness of a raw id: `0` and `""` are falsy. -/
def jsIdTruthy : JSId → Bool
  | .str s => s ≠ ""
  | .num n => n ≠ 0

/-- Truthiness of a possibly `null` id value. -/
def optTruthy : Option JSId → Bool
  | none => false
  | some i => jsIdTruthy i

/-- The `String(value)` coercion of a possibly `null` id (`String(null)` is
the four character string `null`). -/
def jsOptStr : Option JSId → String
  | none => "null"
  | some i => jsIdStr i

/-- One record of the node data: raw id plus coordinates. -/
structure JSNode where
  id : JSId
  lat : ℚ
  lng : ℚ
deriving DecidableEq

/-- The improved `findNearestNode(lat, lng, nodes, excludeNodeId = null)` of
`src/unnamed/part_002`: linear scan keeping the strictly closest node so far,
skipping a node exactly when `excludeNodeId` is truthy and
`String(node.id) === String(excludeNodeId)`.  The haversine value of each node
for the queried coordinate is supplied by the oracle `d`. -/
def findNearestNode (d : JSNode → ℚ) (nodes : List JSNode)
    (excl : Option JSId) : Option JSId :=
  (nodes.foldl
    (fun acc node =>
      if optTruthy excl ∧ jsIdStr node.id = jsOptStr excl then acc
      else if (d node : WithTop ℚ) < acc.1 then ((d node : WithTop ℚ), some node.id)
      else acc)
    ((⊤ : WithTop ℚ), (none : Option JSId))).2

/-- Failure taxonomy of the `/calculate_route` handler. -/
inductive RouteError where
  | dataUnavailable
  | tooClose
  | noNearbyNode
  | noRoute
deriving DecidableEq

/-- Result `{isIndoor, confidence}` of one indoor detector. -/
structure IndoorResult where
  isIndoor : Bool
  confidence : ℚ
deriving DecidableEq

/-- The `indoorInfo` metadata object attached to a successful route response. -/
structure IndoorInfo where
  startR : IndoorResult
  endR : IndoorResult
  hasIndoorPoints : Bool
deriving DecidableEq

/-- Observable response of the `/calculate_route` handler of
`src/unnamed/part_002`: success flag, route coordinates, failure reason and
the advisory indoor metadata (present only on success). -/
structure RouteResponse where
  success : Bool
  route : List (ℚ × ℚ)
  error : Option RouteError
  indoorInfo : Option IndoorInfo
deriving DecidableEq

/-- One scanned WiFi network. -/
structure WifiNetwork where
  signalStrength : ℚ
deriving DecidableEq

/-- The `deviceInfo.wifi` payload; `networks` may be absent. -/
structure WifiData where
  networks : Option (List WifiNetwork)
deriving DecidableEq

/-- The `deviceInfo.cellular` payload with its optional fields. -/
structure CellularData where
  signalStrength : Option ℚ
  networkType : Option String
  downlink : Option ℚ
deriving DecidableEq

/-- The optional `deviceInfo` request field. -/
structure DeviceInfo where
  wifi : Option WifiData
  cellular : Option CellularData
deriving DecidableEq

/-- Location payload as seen by `detectIndoorFromGPS`: the handler passes the
raw `start`/`end` request objects, so `accuracy`, `altitude` and `speed` are
whatever the client supplied, usually absent. -/
structure GPSData where
  accuracy : Option ℚ
  altitude : Option ℚ
  speed : Option ℚ
deriving DecidableEq

/-- JavaScript falsiness of an optional numeric field: absent or `0`. -/
def jsFalsyNum : Option ℚ → Bool
  | none => true
  | some q => q = 0

/-- `detectIndoorFromGPS(gpsData)`: `accuracy || Infinity`, three score checks
(accuracy above 20, missing altitude, missing speed), `indoorScore >= 2`, and
`confidence = indoorScore / totalChecks * 100` with `totalChecks = 3`. -/
def detectIndoorFromGPS (gpsData : GPSData) : IndoorResult :=
  let accuracy : WithTop ℚ :=
    match gpsData.accuracy with
    | some a => if a = 0 then ⊤ else (a : WithTop ℚ)
    | none => ⊤
  let s1 : ℚ := if (20 : WithTop ℚ) < accuracy then 3 else 0
  let s2 : ℚ := if jsFalsyNum gpsData.altitude then 1 else 0
  let s3 : ℚ := if jsFalsyNum gpsData.speed then 1 else 0
  let indoorScore := s1 + s2 + s3
  ⟨decide (2 ≤ indoorScore), indoorScore / 3 * 100⟩

/-- `analyzeWiFiNetworks(wifiData)`: early exit without data, two score checks
(`networkCount` thresholds and `averageSignal > -50`), `indoorScore >= 1`, and
`confidence = indoorScore / 2 * 100`.  With zero networks the average is
`0 / 0`, `NaN` in the source, whose comparison with `-50` is false. -/
def analyzeWiFiNetworks (w : Option WifiData) : IndoorResult :=
  match w with
  | none => ⟨false, 0⟩
  | some wd =>
    match wd.networks with
    | none => ⟨false, 0⟩
    | some nets =>
      let networkCount := nets.length
      let avgAbove : Bool :=
        if networkCount = 0 then false
        else decide ((-50 : ℚ) <
          (nets.map (fun x => x.signalStrength)).sum / (networkCount : ℚ))
      let s1 : ℚ := if 8 < networkCount then 2 else if 5 < networkCount then 1 else 0
      let s2 : ℚ := if avgAbove then 1 else 0
      let score := s1 + s2
      ⟨decide (1 ≤ score), score / 2 * 100⟩

/-- `analyzeCellularNetwork(cellularData)`: defaults for the three fields,
three score checks, `indoorScore >= 1`, `confidence = indoorScore / 3 * 100`. -/
def analyzeCellularNetwork (c : Option CellularData) : IndoorResult :=
  match c with
  | none => ⟨false, 0⟩
  | some cd =>
    let signalStrength : ℚ := match cd.signalStrength with | some q => q | none => 0
    let networkType : String :=
      match cd.networkType with
      | some t => if t = "" then "unknown" else t
      | none => "unknown"
    let downlink : ℚ := match cd.downlink with | some q => q | none => 0
    let s1 : ℚ :=
      if signalStrength < 3 / 10 then 2 else if signalStrength < 6 / 10 then 1 else 0
    let s2 : ℚ := if networkType = "slow-2g" ∨ networkType = "2g" then 1 else 0
    let s3 : ℚ := if downlink < 1 then 1 else 0
    let score := s1 + s2 + s3
    ⟨decide (1 ≤ score), score / 3 * 100⟩

/-- `comprehensiveIndoorDetection(locationData, deviceInfo)`: the GPS verdict
weighs 3, WiFi and cellular weigh 1, a component participates only when its
confidence is positive, `isIndoor` requires total score at least 2, and the
confidence is the mean of the participating confidences. -/
def comprehensiveIndoorDetection (loc : GPSData) (dev : Option DeviceInfo) :
    IndoorResult :=
  let gpsResult := detectIndoorFromGPS loc
  let wifiResult := analyzeWiFiNetworks (dev.bind (fun x => x.wifi))
  let cellularResult := analyzeCellularNetwork (dev.bind (fun x => x.cellular))
  let gPart : ℚ × ℚ × ℚ :=
    if 0 < gpsResult.confidence then
      (if gpsResult.isIndoor then 3 else 0, gpsResult.confidence, 1)
    else (0, 0, 0)
  let wPart : ℚ × ℚ × ℚ :=
    if 0 < wifiResult.confidence then
      (if wifiResult.isIndoor then 1 else 0, wifiResult.confidence, 1)
    else (0, 0, 0)
  let cPart : ℚ × ℚ × ℚ :=
    if 0 < cellularResult.confidence then
      (if cellularResult.isIndoor then 1 else 0, cellularResult.confidence, 1)
    else (0, 0, 0)
  let totalScore := gPart.1 + wPart.1 + cPart.1
  let totalConfidence := gPart.2.1 + wPart.2.1 + cPart.2.1
  let totalChecks := gPart.2.2 + wPart.2.2 + cPart.2.2
  ⟨decide (2 ≤ totalScore),
    if totalChecks = 0 then 0 else totalConfidence / totalChecks⟩

/-- The `/calculate_route` handler of `src/unnamed/part_002` after the graph
data is available: snap both coordinates, on an identical snap retry the end
snap excluding the start snap, fail `tooClose` when still identical, compute
the advisory indoor classification, fail `noNearbyNode` on a falsy snap, run
`bidirectionalDijkstra` on the stringified ids, fail `noRoute` on a path of
length below one, otherwise map ids to coordinates (dropping ids that fail
lookup) and succeed with the indoor metadata attached.  The haversine values
of the two query coordinates are supplied by the oracles `dS` and `dE`. -/
def calculateRouteP2 (nodes : List JSNode) (edges : Graph) (dS dE : JSNode → ℚ)
    (startLoc endLoc : GPSData) (dev : Option DeviceInfo) : RouteResponse :=
  let startNode := findNearestNode dS nodes none
  let endNode0 := findNearestNode dE nodes none
  let endNode :=
    if jsOptStr startNode = jsOptStr endNode0 then findNearestNode dE nodes startNode
    else endNode0
  if jsOptStr startNode = jsOptStr endNode then
    ⟨false, [], some RouteError.tooClose, none⟩
  else
    let startIndoor := comprehensiveIndoorDetection startLoc dev
    let endIndoor := comprehensiveIndoorDetection endLoc dev
    if optTruthy startNode = false ∨ optTruthy endNode = false then
      ⟨false, [], some RouteError.noNearbyNode, none⟩
    else
      let result := bidirectionalDijkstra edges (jsOptStr startNode) (jsOptStr endNode)
      if result.path.length < 1 then ⟨false, [], some RouteError.noRoute, none⟩
      else
        let coords := result.path.filterMap (fun i =>
          match nodes.find? (fun n => jsIdStr n.id = i) with
          | some n => some (n.lat, n.lng)
          | none => none)
        ⟨true, coords, none,
          some ⟨startIndoor, endIndoor, startIndoor.isIndoor || endIndoor.isIndoor⟩⟩

/-- Path acceptance boundary of the `part_000` handler:
`!result.path || result.path.length === 0` fails. -/
def routeAcceptsP0 (r : BDResult) : Bool := decide (r.path.length ≠ 0)

/-- Path acceptance boundary of the `part_001` handler:
`!result.path || result.path.length < 1` fails. -/
def routeAcceptsP1 (r : BDResult) : Bool := decide (1 ≤ r.path.length)

/-- Path acceptance boundary of the `part_002` handler, same test as
`part_001`. -/
def routeAcceptsP2 (r : BDResult) : Bool := decide (1 ≤ r.path.length)

/-- Path acceptance boundary of the `src/index.js` handler:
`!result.path || result.path.length <= 1` fails. -/
def routeAcceptsIndex (r : BDResult) : Bool := decide (2 ≤ r.path.length)

/-- One raw adjacency record of the downloaded edge data, with the raw
destination id. -/
structure RawEdge where
  node : JSId
  weight : ℚ
deriving DecidableEq

/-- The raw edge mapping as downloaded: string keys to raw records. -/
abbrev RawGraph := List (String × List RawEdge)

/-- The `routableNodeIds` set built by `loadGraphData` of
`src/unnamed/part_002`: every edge-source key and the `String(edge.node)` of
every record (a list models the `Set`; only membership is consumed). -/
def routableNodeIds (re : RawGraph) : List String :=
  re.flatMap (fun p => p.1 :: p.2.map (fun e => jsIdStr e.node))

/-- The filtering step of `loadGraphData`:
`allNodes.filter(node => routableNodeIds.has(String(node.id)))`. -/
def filterRoutableNodes (allNodes : List JSNode) (re : RawGraph) : List JSNode :=
  allNodes.filter (fun n => jsIdStr n.id ∈ routableNodeIds re)

/-- Specification-side description of the set `S`: a canonical id occurs as an
edge-source key or as the canonical form of some record destination. -/
def InRoutableSet (re : RawGraph) (x : String) : Prop :=
  (∃ p ∈ re, p.1 = x) ∨ ∃ p ∈ re, ∃ e ∈ p.2, jsIdStr e.node = x

end RouteServer

section DevGraphs

open RouteServer

/-- Concrete graph used by the optimality counterexamples: edges `A → B (1)`,
`C → A (10)`, `C → B (10)`. -/
def gCex : Graph := [("A", [⟨"B", 1⟩]), ("C", [⟨"A", 10⟩, ⟨"B", 10⟩])]

/-- Concrete graph used by the stop-check counterexample: edges `A → C (1)`,
`B → D (10)`, `B → E (2)`, `C → D (4)`. -/
def gC2 : Graph :=
  [("A", [⟨"C", 1⟩]), ("B", [⟨"D", 10⟩, ⟨"E", 2⟩]), ("C", [⟨"D", 4⟩])]

end DevGraphs

namespace RouteServer

theorem insertEntry_perm (e : QEntry) (l : List QEntry) :
    List.Perm (insertEntry e l) (e :: l) := by
  induction l with
  | nil => simp [insertEntry]
  | cons x xs ih =>
    by_cases h : e.dist ≤ x.dist
    · simp [insertEntry, h]
    · simp only [insertEntry, h, if_false]
      exact (ih.cons x).trans (List.Perm.swap e x xs)

theorem sortQueue_perm (l : List QEntry) : List.Perm (sortQueue l) l := by
  induction l with
  | nil => simp [sortQueue]
  | cons x xs ih => exact (insertEntry_perm x (sortQueue xs)).trans (ih.cons x)

theorem mem_sortQueue {x : QEntry} {l : List QEntry} : x ∈ sortQueue l ↔ x ∈ l :=
  (sortQueue_perm l).mem_iff

theorem insertEntry_pairwise {e : QEntry} {l : List QEntry}
    (h : l.Pairwise (fun a b => a.dist ≤ b.dist)) :
    (insertEntry e l).Pairwise (fun a b => a.dist ≤ b.dist) := by
  induction l with
  | nil => simp [insertEntry]
  | cons x xs ih =>
    rcases List.pairwise_cons.mp h with ⟨hx, hxs⟩
    by_cases hle : e.dist ≤ x.dist
    · simp only [insertEntry, hle, if_true]
      refine List.pairwise_cons.mpr ⟨?_, h⟩
      intro b hb
      rcases List.mem_cons.mp hb with hb | hb
      · subst hb; exact hle
      · exact le_trans hle (hx b hb)
    · simp only [insertEntry, hle, if_false]
      refine List.pairwise_cons.mpr ⟨?_, ih hxs⟩
      intro b hb
      rcases List.mem_cons.mp (((insertEntry_perm e xs).mem_iff).mp hb) with hb | hb
      · subst hb; exact le_of_not_le hle
      · exact hx b hb

theorem sortQueue_pairwise (l : List QEntry) :
    (sortQueue l).Pairwise (fun a b => a.dist ≤ b.dist) := by
  induction l with
  | nil => simp [sortQueue]
  | cons x xs ih => exact insertEntry_pairwise ih

theorem sortQueue_head_le {l rest : List QEntry} {c : QEntry}
    (h : sortQueue l = c :: rest) : ∀ x ∈ l, c.dist ≤ x.dist := by
  intro x hx
  have hx2 : x ∈ sortQueue l := mem_sortQueue.mpr hx
  rw [h] at hx2
  rcases List.mem_cons.mp hx2 with hx3 | hx3
  · subst hx3; exact le_of_eq rfl
  · have hp := sortQueue_pairwise l
    rw [h] at hp
    exact (List.pairwise_cons.mp hp).1 x hx3

theorem sortQueue_cons_mem {l rest : List QEntry} {c x : QEntry}
    (h : sortQueue l = c :: rest) (hx : x ∈ l) : x = c ∨ x ∈ rest := by
  have hx2 : x ∈ sortQueue l := mem_sortQueue.mpr hx
  rw [h] at hx2
  exact List.mem_cons.mp hx2

theorem sortQueue_rest_mem {l rest : List QEntry} {c x : QEntry}
    (h : sortQueue l = c :: rest) (hx : x ∈ rest) : x ∈ l := by
  have hx2 : x ∈ sortQueue l := by rw [h]; exact List.mem_cons_of_mem c hx
  exact mem_sortQueue.mp hx2

theorem sortQueue_cons_self_mem {l rest : List QEntry} {c : QEntry}
    (h : sortQueue l = c :: rest) : c ∈ l := by
  have hc : c ∈ sortQueue l := by rw [h]; exact List.mem_cons_self c rest
  exact mem_sortQueue.mp hc

theorem minDist_le {q : List QEntry} {x : QEntry} (hx : x ∈ q) :
    minDist q ≤ x.dist := by
  induction q with
  | nil => cases hx
  | cons a as ih =>
    rcases List.mem_cons.mp hx with hx2 | hx2
    · subst hx2; simp [minDist, min_le_left]
    · exact le_trans (by simp [minDist, min_le_right]) (ih hx2)

theorem minDist_mem {q : List QEntry} (h : q ≠ []) :
    ∃ x ∈ q, minDist q = x.dist := by
  induction q with
  | nil => exact absurd rfl h
  | cons a as ih =>
    by_cases hne : as = []
    · subst hne
      exact ⟨a, List.mem_cons_self a [], by simp [minDist]⟩
    · rcases ih hne with ⟨x, hx, hmx⟩
      by_cases hle : a.dist ≤ minDist as
      · exact ⟨a, List.mem_cons_self a as, by simp [minDist, min_eq_left hle]⟩
      · refine ⟨x, List.mem_cons_of_mem a hx, ?_⟩
        have h2 : minDist (a :: as) = minDist as := by
          simp [minDist, min_eq_right (le_of_not_le hle)]
        rw [h2, hmx]

theorem minDist_le_headDist (q : List QEntry) : minDist q ≤ headDist q := by
  cases q with
  | nil => simp [minDist, headDist]
  | cons a as => simp [minDist, headDist, min_le_left]

theorem minDist_eq_top {q : List QEntry} (hfin : ∀ x ∈ q, x.dist ≠ ⊤) :
    minDist q = ⊤ ↔ q = [] := by
  cases q with
  | nil => simp [minDist]
  | cons a as =>
    simp only [minDist]
    constructor
    · intro h
      have hle := min_le_left a.dist (minDist as)
      rw [h, top_le_iff] at hle
      exact absurd hle (hfin a (List.mem_cons_self a as))
    · intro h; cases h

theorem headDist_eq_top {q : List QEntry} (hfin : ∀ x ∈ q, x.dist ≠ ⊤) :
    headDist q = ⊤ ↔ q = [] := by
  cases q with
  | nil => simp [headDist]
  | cons a as =>
    simp only [headDist]
    constructor
    · intro h; exact absurd h (hfin a (List.mem_cons_self a as))
    · intro h; cases h

end RouteServer

namespace RouteServer

theorem relaxOne_visited (cur tgt : NodeId) (w : ℚ) (d : DirState) :
    (relaxOne cur tgt w d).visited = d.visited := by
  unfold relaxOne
  by_cases h : d.dist cur + (w : WithTop ℚ) < d.dist tgt <;> simp [h]

theorem relaxMany_visited (cur : NodeId) (l : List (NodeId × ℚ)) (d : DirState) :
    (relaxMany cur l d).visited = d.visited := by
  induction l generalizing d with
  | nil => rfl
  | cons x xs ih =>
    simp only [relaxMany, List.foldl_cons] at *
    rw [ih, relaxOne_visited]

theorem relaxFAux_spec (cur : NodeId) (l : List Edge) (st : BDState) :
    projF (relaxFAux cur l st) =
        relaxMany cur (l.map (fun e => (e.node, e.weight))) (projF st) ∧
      projB (relaxFAux cur l st) = projB st ∧
      (relaxFAux cur l st).best = st.best ∧
      (relaxFAux cur l st).meeting = st.meeting ∧
      (relaxFAux cur l st).done = st.done := by
  induction l generalizing st with
  | nil => exact ⟨rfl, rfl, rfl, rfl, rfl⟩
  | cons e es ih =>
    have hstep :
        relaxFAux cur (e :: es) st =
          relaxFAux cur es
            (let alt := st.distF cur + (e.weight : WithTop ℚ)
             if alt < st.distF e.node then
              { st with
                distF := fun n => if n = e.node then alt else st.distF n
                prevF := fun n => if n = e.node then some cur else st.prevF n
                queueF := st.queueF ++ [⟨e.node, alt⟩]
                relaxations := st.relaxations + 1 }
             else st) := rfl
    rw [hstep]
    by_cases hlt : st.distF cur + (e.weight : WithTop ℚ) < st.distF e.node
    · simp only [hlt, if_true]
      rcases ih _ with ⟨h1, h2, h3, h4, h5⟩
      refine ⟨?_, by simpa using h2, by simpa using h3, by simpa using h4,
        by simpa using h5⟩
      rw [h1]
      simp only [List.map_cons, relaxMany, List.foldl_cons]
      congr 1
      simp only [relaxOne, projF]
      rw [if_pos hlt]
    · simp only [hlt, if_false]
      rcases ih st with ⟨h1, h2, h3, h4, h5⟩
      refine ⟨?_, h2, h3, h4, h5⟩
      rw [h1]
      simp only [List.map_cons, relaxMany, List.foldl_cons]
      congr 1
      simp only [relaxOne, projF]
      rw [if_neg hlt]

theorem relaxBAux_spec (cur src : NodeId) (l : List Edge) (st : BDState) :
    projB (relaxBAux cur src l st) =
        relaxMany cur
          ((l.filter (fun e => e.node = cur)).map (fun e => (src, e.weight)))
          (projB st) ∧
      projF (relaxBAux cur src l st) = projF st ∧
      (relaxBAux cur src l st).best = st.best ∧
      (relaxBAux cur src l st).meeting = st.meeting ∧
      (relaxBAux cur src l st).done = st.done := by
  induction l generalizing st with
  | nil => exact ⟨rfl, rfl, rfl, rfl, rfl⟩
  | cons e es ih =>
    by_cases hm : e.node = cur
    · have hfil :
          (e :: es).filter (fun e => e.node = cur) =
            e :: es.filter (fun e => e.node = cur) := by
        simp [List.filter_cons, hm]
      have hstep :
          relaxBAux cur src (e :: es) st =
            relaxBAux cur src es
              (let alt := st.distB cur + (e.weight : WithTop ℚ)
               if alt < st.distB src then
                { st with
                  distB := fun n => if n = src then alt else st.distB n
                  prevB := fun n => if n = src then some cur else st.prevB n
                  queueB := st.queueB ++ [⟨src, alt⟩]
                  relaxations := st.relaxations + 1 }
               else st) := by
        simp only [relaxBAux, List.foldl_cons, hm, if_true]
      rw [hstep, hfil]
      by_cases hlt : st.distB cur + (e.weight : WithTop ℚ) < st.distB src
      · simp only [hlt, if_true]
        rcases ih _ with ⟨h1, h2, h3, h4, h5⟩
        refine ⟨?_, by simpa using h2, by simpa using h3, by simpa using h4,
          by simpa using h5⟩
        rw [h1]
        simp only [List.map_cons, relaxMany, List.foldl_cons]
        congr 1
        simp only [relaxOne, projB]
        rw [if_pos hlt]
      · simp only [hlt, if_false]
        rcases ih st with ⟨h1, h2, h3, h4, h5⟩
        refine ⟨?_, h2, h3, h4, h5⟩
        rw [h1]
        simp only [List.map_cons, relaxMany, List.foldl_cons]
        congr 1
        simp only [relaxOne, projB]
        rw [if_neg hlt]
    · have hfil :
          (e :: es).filter (fun e => e.node = cur) =
            es.filter (fun e => e.node = cur) := by
        simp [List.filter_cons, hm]
      have hstep : relaxBAux cur src (e :: es) st = relaxBAux cur src es st := by
        simp only [relaxBAux, List.foldl_cons, hm, if_false]
      rw [hstep, hfil]
      exact ih st

theorem relaxMany_append (cur : NodeId) (l₁ l₂ : List (NodeId × ℚ)) (d : DirState) :
    relaxMany cur (l₁ ++ l₂) d = relaxMany cur l₂ (relaxMany cur l₁ d) := by
  simp [relaxMany, List.foldl_append]

theorem relaxB_spec (g : Graph) (cur : NodeId) (st : BDState) :
    projB (relaxB g cur st) = relaxMany cur (backPairs g cur) (projB st) ∧
      projF (relaxB g cur st) = projF st ∧
      (relaxB g cur st).best = st.best ∧
      (relaxB g cur st).meeting = st.meeting ∧
      (relaxB g cur st).done = st.done := by
  show projB (g.foldl (fun s p => relaxBAux cur p.1 p.2 s) st) = _ ∧ _
  induction g generalizing st with
  | nil => exact ⟨rfl, rfl, rfl, rfl, rfl⟩
  | cons p ps ih =>
    simp only [List.foldl_cons]
    rcases ih (relaxBAux cur p.1 p.2 st) with ⟨h1, h2, h3, h4, h5⟩
    rcases relaxBAux_spec cur p.1 p.2 st with ⟨g1, g2, g3, g4, g5⟩
    refine ⟨?_, h2.trans g2, h3.trans g3, h4.trans g4, h5.trans g5⟩
    rw [h1, g1]
    simp only [backPairs, List.flatMap_cons, relaxMany_append]

theorem relaxF_spec (g : Graph) (cur : NodeId) (st : BDState) :
    projF (relaxF g cur st) =
        relaxMany cur ((adj g cur).map (fun e => (e.node, e.weight))) (projF st) ∧
      projB (relaxF g cur st) = projB st ∧
      (relaxF g cur st).best = st.best ∧
      (relaxF g cur st).meeting = st.meeting ∧
      (relaxF g cur st).done = st.done :=
  relaxFAux_spec cur (adj g cur) st

end RouteServer

namespace RouteServer

theorem pairwiseImpMem {α : Type} {R S : α → α → Prop} {l : List α}
    (h : ∀ a ∈ l, ∀ b ∈ l, R a b → S a b) (hp : l.Pairwise R) : l.Pairwise S := by
  induction l with
  | nil => exact List.Pairwise.nil
  | cons x xs ih =>
    rcases List.pairwise_cons.mp hp with ⟨hx, hxs⟩
    refine List.pairwise_cons.mpr ⟨?_, ?_⟩
    · intro b hb
      exact h x (List.mem_cons_self x xs) b (List.mem_cons_of_mem x hb) (hx b hb)
    · exact ih (fun a ha b hb => h a (List.mem_cons_of_mem x ha) b
        (List.mem_cons_of_mem x hb)) hxs

theorem relaxOne_inv {E : NodeId → NodeId → ℚ → Prop} {r cur tgt : NodeId} {w : ℚ}
    {d : DirState} (inv : DirInv E r d) (hcur : d.visited.head? = some cur)
    (hE : E cur tgt w) (hw : 0 ≤ w) :
    DirInv E r (relaxOne cur tgt w d) ∧
      (relaxOne cur tgt w d).visited = d.visited ∧
      (∀ u ∈ d.visited, (relaxOne cur tgt w d).dist u = d.dist u) ∧
      (∀ q ∈ (relaxOne cur tgt w d).queue,
        q ∈ d.queue ∨ (q.node ∉ d.visited ∧ d.dist cur ≤ q.dist)) := by
  have hsplitv : ∃ vs, d.visited = cur :: vs := by
    cases hv : d.visited with
    | nil => rw [hv] at hcur; cases hcur
    | cons a vs =>
      rw [hv] at hcur
      have ha : a = cur := by simpa using hcur
      exact ⟨vs, by rw [ha]⟩
  obtain ⟨vs, hvs⟩ := hsplitv
  have hcurmem : cur ∈ d.visited := by
    rw [hvs]; exact List.mem_cons_self cur vs
  have hvle : ∀ u ∈ d.visited, d.dist u ≤ d.dist cur := by
    have hmono := inv.vmono
    rw [hvs] at hmono
    rcases List.pairwise_cons.mp hmono with ⟨hhead, _⟩
    intro u hu
    rw [hvs] at hu
    rcases List.mem_cons.mp hu with hu2 | hu2
    · subst hu2; exact le_refl _
    · exact hhead u hu2
  have hwnn : (0 : WithTop ℚ) ≤ (w : WithTop ℚ) := by exact_mod_cast hw
  by_cases hlt : d.dist cur + (w : WithTop ℚ) < d.dist tgt
  · have haltnn : (0 : WithTop ℚ) ≤ d.dist cur + (w : WithTop ℚ) :=
      add_nonneg (inv.nonneg cur) hwnn
    have haltfin : d.dist cur + (w : WithTop ℚ) ≠ ⊤ :=
      WithTop.add_ne_top.mpr ⟨inv.vfin cur hcurmem, WithTop.coe_ne_top⟩
    have hcurle : d.dist cur ≤ d.dist cur + (w : WithTop ℚ) :=
      le_add_of_nonneg_right hwnn
    have htgt : tgt ∉ d.visited := by
      intro hmem
      exact absurd hlt (not_lt.mpr (le_trans (hvle tgt hmem) hcurle))
    have hrtgt : tgt ≠ r := by
      intro h
      subst h
      rw [inv.distRoot] at hlt
      exact absurd hlt (not_lt.mpr haltnn)
    have hres : relaxOne cur tgt w d =
        ⟨fun n => if n = tgt then d.dist cur + (w : WithTop ℚ) else d.dist n,
         fun n => if n = tgt then some cur else d.prev n,
         d.visited, d.queue ++ [⟨tgt, d.dist cur + (w : WithTop ℚ)⟩]⟩ := by
      unfold relaxOne
      rw [if_pos hlt]
    rw [hres]
    have hdist : ∀ u ∈ d.visited,
        (if u = tgt then d.dist cur + (w : WithTop ℚ) else d.dist u) = d.dist u := by
      intro u hu
      rw [if_neg (by intro h; subst h; exact htgt hu)]
    refine ⟨?_, rfl, hdist, ?_⟩
    · constructor
      · exact inv.vnodup
      · exact inv.vne
      · intro u hu
        simp only [hdist u hu]
        exact inv.vfin u hu
      · refine pairwiseImpMem ?_ inv.vmono
        intro a ha b hb hab
        simp only [hdist a ha, hdist b hb]
        exact hab
      · intro u hu hp
        simp only at hp
        rw [if_neg (by intro h; subst h; exact htgt hu)] at hp
        exact inv.root u hu hp
      · simp only
        rw [if_neg (fun h => hrtgt h.symm)]
        exact inv.distRoot
      · intro x
        simp only
        split
        · exact haltnn
        · exact inv.nonneg x
      · intro u hu p hp
        simp only at hp ⊢
        rw [if_neg (by intro h; subst h; exact htgt hu)] at hp
        rcases inv.chain u hu p hp with ⟨hsplit, w2, hE2, heq⟩
        have hpvis : p ∈ d.visited := by
          rcases hsplit with ⟨l₁, l₂, hl, hpl⟩
          rw [hl]
          exact List.mem_append_right l₁ (List.mem_cons_of_mem u hpl)
        refine ⟨hsplit, w2, hE2, ?_⟩
        rw [hdist u hu, hdist p hpvis]
        exact heq
      · intro n hn p hp
        simp only at hp ⊢
        by_cases hnt : n = tgt
        · subst hnt
          rw [if_pos rfl] at hp
          have hpc : p = cur := by simpa using hp.symm
          subst hpc
          refine ⟨hcurmem, w, hE, ?_⟩
          rw [if_pos rfl, hdist p hcurmem]
        · rw [if_neg hnt] at hp
          rcases inv.pend n hn p hp with ⟨hpmem, w2, hE2, heq⟩
          refine ⟨hpmem, w2, hE2, ?_⟩
          rw [if_neg hnt, hdist p hpmem]
          exact heq
      · intro n hn hp hnr
        simp only at hp ⊢
        by_cases hnt : n = tgt
        · subst hnt
          rw [if_pos rfl] at hp
          cases hp
        · rw [if_neg hnt] at hp
          rw [if_neg hnt]
          exact inv.pendNone n hn hp hnr
      · intro q hq
        simp only at hq ⊢
        rcases List.mem_append.mp hq with hq2 | hq2
        · split
          · rename_i hqt
            have h2 : d.dist tgt ≤ q.dist := by rw [← hqt]; exact inv.qbound q hq2
            exact le_trans (le_of_lt hlt) h2
          · exact inv.qbound q hq2
        · have hq3 : q = ⟨tgt, d.dist cur + (w : WithTop ℚ)⟩ := by simpa using hq2
          subst hq3
          simp
      · intro q hq
        rcases List.mem_append.mp hq with hq2 | hq2
        · exact inv.qfin q hq2
        · have hq3 : q = ⟨tgt, d.dist cur + (w : WithTop ℚ)⟩ := by simpa using hq2
          subst hq3
          exact haltfin
      · intro n hn hne hfin
        simp only at hfin ⊢
        by_cases hnt : n = tgt
        · subst hnt
          refine ⟨⟨n, d.dist cur + (w : WithTop ℚ)⟩,
            List.mem_append_right _ (List.mem_cons_self _ _), rfl, ?_⟩
          rw [if_pos rfl]
        · rw [if_neg hnt] at hfin
          rcases inv.qwit n hn hne hfin with ⟨q0, hq0, hq0n, hq0d⟩
          refine ⟨q0, List.mem_append_left _ hq0, hq0n, ?_⟩
          rw [if_neg hnt]
          exact hq0d
      · intro u hu q hq
        simp only at hq ⊢
        rw [hdist u hu]
        rcases List.mem_append.mp hq with hq2 | hq2
        · exact inv.vq u hu q hq2
        · have hq3 : q = ⟨tgt, d.dist cur + (w : WithTop ℚ)⟩ := by simpa using hq2
          subst hq3
          exact le_trans (hvle u hu) hcurle
    · intro q hq
      simp only at hq
      rcases List.mem_append.mp hq with hq2 | hq2
      · exact Or.inl hq2
      · have hq3 : q = ⟨tgt, d.dist cur + (w : WithTop ℚ)⟩ := by simpa using hq2
        subst hq3
        exact Or.inr ⟨htgt, hcurle⟩
  · have hres : relaxOne cur tgt w d = d := by
      unfold relaxOne
      rw [if_neg hlt]
    rw [hres]
    exact ⟨inv, rfl, fun u _ => rfl, fun q hq => Or.inl hq⟩

end RouteServer

namespace RouteServer

theorem relaxMany_inv {E : NodeId → NodeId → ℚ → Prop} {r cur : NodeId}
    {l : List (NodeId × ℚ)} {d : DirState}
    (inv : DirInv E r d) (hcur : d.visited.head? = some cur)
    (hl : ∀ x ∈ l, E cur x.1 x.2 ∧ 0 ≤ x.2) :
    DirInv E r (relaxMany cur l d) ∧
      (relaxMany cur l d).visited = d.visited ∧
      (∀ u ∈ d.visited, (relaxMany cur l d).dist u = d.dist u) ∧
      (∀ q ∈ (relaxMany cur l d).queue,
        q ∈ d.queue ∨ (q.node ∉ d.visited ∧ d.dist cur ≤ q.dist)) := by
  induction l generalizing d with
  | nil => exact ⟨inv, rfl, fun u _ => rfl, fun q hq => Or.inl hq⟩
  | cons x xs ih =>
    have hcurmem : cur ∈ d.visited := by
      cases hv : d.visited with
      | nil => rw [hv] at hcur; cases hcur
      | cons a vsx =>
        rw [hv] at hcur
        have ha : a = cur := by simpa using hcur
        rw [ha]
        exact List.mem_cons_self cur vsx
    rcases hl x (List.mem_cons_self x xs) with ⟨hE, hw⟩
    rcases relaxOne_inv inv hcur hE hw with ⟨inv1, hv1, hd1, hq1⟩
    have hcur1 : (relaxOne cur x.1 x.2 d).visited.head? = some cur := by
      rw [hv1]; exact hcur
    rcases ih inv1 hcur1 (fun y hy => hl y (List.mem_cons_of_mem x hy)) with
      ⟨inv2, hv2, hd2, hq2⟩
    have hunf : relaxMany cur (x :: xs) d = relaxMany cur xs (relaxOne cur x.1 x.2 d) :=
      rfl
    rw [hunf]
    refine ⟨inv2, hv2.trans hv1, ?_, ?_⟩
    · intro u hu
      have hu1 : u ∈ (relaxOne cur x.1 x.2 d).visited := by rw [hv1]; exact hu
      rw [hd2 u hu1, hd1 u hu]
    · intro q hq
      have hdc : (relaxOne cur x.1 x.2 d).dist cur = d.dist cur := hd1 cur hcurmem
      rcases hq2 q hq with hq3 | ⟨hq3, hq4⟩
      · rcases hq1 q hq3 with hq5 | ⟨hq5, hq6⟩
        · exact Or.inl hq5
        · exact Or.inr ⟨hq5, hq6⟩
      · rw [hv1] at hq3
        rw [hdc] at hq4
        exact Or.inr ⟨hq3, hq4⟩

theorem settle_inv {E : NodeId → NodeId → ℚ → Prop} {r : NodeId} {d : DirState}
    {c : QEntry} {rest : List QEntry}
    (inv : DirInv E r d) (hsort : sortQueue d.queue = c :: rest)
    (hne : c.node ≠ "") (hnv : c.node ∉ d.visited) :
    d.dist c.node = c.dist ∧
      DirInv E r ⟨d.dist, d.prev, c.node :: d.visited, rest⟩ := by
  have hcmem : c ∈ d.queue := sortQueue_cons_self_mem hsort
  have hub : d.dist c.node ≤ c.dist := inv.qbound c hcmem
  have hfin : d.dist c.node ≠ ⊤ := by
    intro h
    rw [h] at hub
    exact inv.qfin c hcmem (top_le_iff.mp hub)
  have hpop : d.dist c.node = c.dist := by
    rcases inv.qwit c.node hnv hne hfin with ⟨q0, hq0, hq0n, hq0d⟩
    have hlow : c.dist ≤ q0.dist := sortQueue_head_le hsort q0 hq0
    rw [hq0d] at hlow
    exact le_antisymm hub hlow
  have hrest : ∀ q ∈ rest, q ∈ d.queue := fun q hq => sortQueue_rest_mem hsort hq
  refine ⟨hpop, ?_⟩
  constructor
  · exact List.nodup_cons.mpr ⟨hnv, inv.vnodup⟩
  · intro u hu
    rcases List.mem_cons.mp hu with hu2 | hu2
    · subst hu2; exact hne
    · exact inv.vne u hu2
  · intro u hu
    rcases List.mem_cons.mp hu with hu2 | hu2
    · subst hu2; exact hfin
    · exact inv.vfin u hu2
  · refine List.pairwise_cons.mpr ⟨?_, inv.vmono⟩
    intro b hb
    rw [hpop]
    exact inv.vq b hb c hcmem
  · intro u hu hp
    rcases List.mem_cons.mp hu with hu2 | hu2
    · subst hu2
      by_contra hur
      exact hfin (inv.pendNone c.node hnv hp hur)
    · exact inv.root u hu2 hp
  · exact inv.distRoot
  · exact inv.nonneg
  · intro u hu p hp
    rcases List.mem_cons.mp hu with hu2 | hu2
    · subst hu2
      rcases inv.pend c.node hnv p hp with ⟨hpmem, w2, hE2, heq⟩
      exact ⟨⟨[], d.visited, rfl, hpmem⟩, w2, hE2, heq⟩
    · rcases inv.chain u hu2 p hp with ⟨⟨l₁, l₂, hl, hpl⟩, w2, hE2, heq⟩
      refine ⟨⟨c.node :: l₁, l₂, ?_, hpl⟩, w2, hE2, heq⟩
      rw [List.cons_append, hl]
  · intro n hn p hp
    have hn2 : n ∉ d.visited := fun h => hn (List.mem_cons_of_mem _ h)
    rcases inv.pend n hn2 p hp with ⟨hpmem, w2, hE2, heq⟩
    exact ⟨List.mem_cons_of_mem _ hpmem, w2, hE2, heq⟩
  · intro n hn hp hnr
    exact inv.pendNone n (fun h => hn (List.mem_cons_of_mem _ h)) hp hnr
  · intro q hq
    exact inv.qbound q (hrest q hq)
  · intro q hq
    exact inv.qfin q (hrest q hq)
  · intro n hn hne2 hfin2
    have hn2 : n ∉ d.visited := fun h => hn (List.mem_cons_of_mem _ h)
    have hnc : n ≠ c.node := by
      intro h
      exact hn (h ▸ List.mem_cons_self _ _)
    rcases inv.qwit n hn2 hne2 hfin2 with ⟨q0, hq0, hq0n, hq0d⟩
    rcases sortQueue_cons_mem hsort hq0 with hq2 | hq2
    · exact absurd (hq2 ▸ hq0n : c.node = n) (fun h => hnc h.symm)
    · exact ⟨q0, hq2, hq0n, hq0d⟩
  · intro u hu q hq
    rcases List.mem_cons.mp hu with hu2 | hu2
    · subst hu2
      rw [hpop]
      exact sortQueue_head_le hsort q (hrest q hq)
    · exact inv.vq u hu2 q (hrest q hq)

theorem skip_inv {E : NodeId → NodeId → ℚ → Prop} {r : NodeId} {d : DirState}
    {c : QEntry} {rest : List QEntry}
    (inv : DirInv E r d) (hsort : sortQueue d.queue = c :: rest)
    (hskip : c.node = "" ∨ c.node ∈ d.visited) :
    DirInv E r ⟨d.dist, d.prev, d.visited, rest⟩ := by
  have hrest : ∀ q ∈ rest, q ∈ d.queue := fun q hq => sortQueue_rest_mem hsort hq
  constructor
  · exact inv.vnodup
  · exact inv.vne
  · exact inv.vfin
  · exact inv.vmono
  · exact inv.root
  · exact inv.distRoot
  · exact inv.nonneg
  · exact inv.chain
  · exact inv.pend
  · exact inv.pendNone
  · intro q hq
    exact inv.qbound q (hrest q hq)
  · intro q hq
    exact inv.qfin q (hrest q hq)
  · intro n hn hne hfin
    have hnc : n ≠ c.node := by
      intro h
      rcases hskip with hs | hs
      · exact hne (h.trans hs)
      · exact hn (h ▸ hs)
    rcases inv.qwit n hn hne hfin with ⟨q0, hq0, hq0n, hq0d⟩
    rcases sortQueue_cons_mem hsort hq0 with hq2 | hq2
    · exact absurd (hq2 ▸ hq0n : c.node = n) (fun h => hnc h.symm)
    · exact ⟨q0, hq2, hq0n, hq0d⟩
  · intro u hu q hq
    exact inv.vq u hu q (hrest q hq)

end RouteServer

namespace RouteServer

theorem adj_mem_pair {g : Graph} {a : NodeId} {e : Edge} (he : e ∈ adj g a) :
    (a, adj g a) ∈ g := by
  unfold adj at he ⊢
  cases hf : g.find? (fun p => p.1 = a) with
  | none => rw [hf] at he; cases he
  | some p =>
    have hp : p ∈ g := List.mem_of_find?_eq_some hf
    have hpa : p.1 = a := by
      have h2 := List.find?_some hf
      simpa using h2
    show (a, p.2) ∈ g
    rw [← hpa]
    exact hp

theorem adj_mem_edgeFrom {g : Graph} {a : NodeId} {e : Edge} (he : e ∈ adj g a) :
    EdgeFrom g a e.node e.weight := by
  refine ⟨adj g a, adj_mem_pair he, ?_⟩
  have he2 : (⟨e.node, e.weight⟩ : Edge) = e := rfl
  rw [he2]
  exact he

theorem adj_nonneg {g : Graph} (hw : NonnegWeights g) {a : NodeId} {e : Edge}
    (he : e ∈ adj g a) : 0 ≤ e.weight :=
  hw (a, adj g a) (adj_mem_pair he) e he

theorem backPairs_edgeFrom {g : Graph} {cur : NodeId} {x : NodeId × ℚ}
    (hx : x ∈ backPairs g cur) : EdgeFrom g x.1 cur x.2 := by
  unfold backPairs at hx
  rcases List.mem_flatMap.mp hx with ⟨p, hp, hx2⟩
  rcases List.mem_map.mp hx2 with ⟨e, he, hex⟩
  have he2 : e ∈ p.2 ∧ e.node = cur := by
    have h3 := List.mem_filter.mp he
    exact ⟨h3.1, by simpa using h3.2⟩
  refine ⟨p.2, ?_, ?_⟩
  · have : (x.1, p.2) = p := by rw [← hex]
    exact this ▸ hp
  · have : (⟨cur, x.2⟩ : Edge) = e := by
      rw [← he2.2, ← hex]
    rw [this]
    exact he2.1

theorem backPairs_nonneg {g : Graph} (hw : NonnegWeights g) {cur : NodeId}
    {x : NodeId × ℚ} (hx : x ∈ backPairs g cur) : 0 ≤ x.2 := by
  unfold backPairs at hx
  rcases List.mem_flatMap.mp hx with ⟨p, hp, hx2⟩
  rcases List.mem_map.mp hx2 with ⟨e, he, hex⟩
  have he2 : e ∈ p.2 := (List.mem_filter.mp he).1
  have hxe : x.2 = e.weight := by rw [← hex]
  rw [hxe]
  exact hw p hp e he2

end RouteServer

namespace RouteServer

theorem stepForward_eq_nil {g : Graph} {st : BDState}
    (h : sortQueue st.queueF = []) : stepForward g st = st := by
  unfold stepForward
  rw [h]

theorem stepForward_eq_skip {g : Graph} {st : BDState} {c : QEntry}
    {rest : List QEntry} (h : sortQueue st.queueF = c :: rest)
    (hsk : c.node = "" ∨ c.node ∈ st.visitedF) :
    stepForward g st = { st with queueF := rest, pops := st.pops + 1 } := by
  unfold stepForward
  rw [h]
  dsimp only
  rw [if_pos hsk]

theorem stepForward_eq_settle {g : Graph} {st : BDState} {c : QEntry}
    {rest : List QEntry} (h : sortQueue st.queueF = c :: rest)
    (hsk : ¬(c.node = "" ∨ c.node ∈ st.visitedF)) :
    stepForward g st =
      relaxF g c.node
        (if c.node ∈ st.visitedB then
          (if st.distF c.node + st.distB c.node < st.best then
            { st with queueF := rest, visitedF := c.node :: st.visitedF,
                      pops := st.pops + 1,
                      best := st.distF c.node + st.distB c.node,
                      meeting := some c.node }
          else
            { st with queueF := rest, visitedF := c.node :: st.visitedF,
                      pops := st.pops + 1 })
        else
          { st with queueF := rest, visitedF := c.node :: st.visitedF,
                    pops := st.pops + 1 }) := by
  unfold stepForward
  rw [h]
  dsimp only
  rw [if_neg hsk]

theorem relaxF_assemble {g : Graph} {s e cur : NodeId} {st2 : BDState}
    (hw : NonnegWeights g)
    (dirF2 : DirInv (LinkF g) s (projF st2))
    (dirB2 : DirInv (LinkB g) e (projB st2))
    (hhead : st2.visitedF.head? = some cur)
    (meet2 : ∀ m, st2.meeting = some m →
      m ∈ st2.visitedF ∧ m ∈ st2.visitedB ∧ st2.best = st2.distF m + st2.distB m)
    (mn2 : st2.meeting = none → st2.best = ⊤)
    (bp2 : st2.best ≠ ⊤ →
      ∀ qf ∈ st2.queueF, ∀ qb ∈ st2.queueB, st2.best ≤ qf.dist + qb.dist)
    (hbest2 : st2.best ≠ ⊤ →
      ∀ qb ∈ st2.queueB, st2.best ≤ st2.distF cur + qb.dist) :
    BDInv g s e (relaxF g cur st2) := by
  rcases relaxF_spec g cur st2 with ⟨hF, hB, hbest, hmeet, _⟩
  have hl : ∀ x ∈ (adj g cur).map (fun e => (e.node, e.weight)),
      LinkF g cur x.1 x.2 ∧ 0 ≤ x.2 := by
    intro x hx
    rcases List.mem_map.mp hx with ⟨ed, hed, hex⟩
    rw [← hex]
    exact ⟨adj_mem_edgeFrom hed, adj_nonneg hw hed⟩
  rcases relaxMany_inv dirF2 hhead hl with ⟨inv3, hv3, hd3, hq3⟩
  have hqeq : (relaxF g cur st2).queueF =
      (relaxMany cur ((adj g cur).map (fun e => (e.node, e.weight))) (projF st2)).queue :=
    congrArg DirState.queue hF
  have hveq : (relaxF g cur st2).visitedF = st2.visitedF := by
    have h1 := congrArg DirState.visited hF
    rw [relaxMany_visited] at h1
    exact h1
  have hdeq : (relaxF g cur st2).distF =
      (relaxMany cur ((adj g cur).map (fun e => (e.node, e.weight))) (projF st2)).dist :=
    congrArg DirState.dist hF
  have hBq : (relaxF g cur st2).queueB = st2.queueB := congrArg DirState.queue hB
  have hBv : (relaxF g cur st2).visitedB = st2.visitedB := congrArg DirState.visited hB
  have hBd : (relaxF g cur st2).distB = st2.distB := congrArg DirState.dist hB
  constructor
  · rw [hF]
    exact inv3
  · rw [hB]
    exact dirB2
  · intro m hm
    rw [hmeet] at hm
    rcases meet2 m hm with ⟨mF, mB, hbeq⟩
    refine ⟨by rw [hveq]; exact mF, by rw [hBv]; exact mB, ?_⟩
    rw [hbest, hdeq, hd3 m mF, hBd]
    exact hbeq
  · intro hm
    rw [hmeet] at hm
    rw [hbest]
    exact mn2 hm
  · intro hb qf hqf qb hqb
    rw [hbest] at hb ⊢
    rw [hBq] at hqb
    rw [hqeq] at hqf
    rcases hq3 qf hqf with hqf2 | ⟨hqf2, hqf3⟩
    · exact bp2 hb qf hqf2 qb hqb
    · have hcle : (projF st2).dist cur ≤ qf.dist := hqf3
      have h1 : st2.best ≤ st2.distF cur + qb.dist := hbest2 hb qb hqb
      have h2 : st2.distF cur + qb.dist ≤ qf.dist + qb.dist :=
        add_le_add_right hcle qb.dist
      exact le_trans h1 h2

theorem stepForward_inv {g : Graph} {s e : NodeId} {st : BDState}
    (hw : NonnegWeights g) (inv : BDInv g s e st) :
    BDInv g s e (stepForward g st) := by
  cases hsort : sortQueue st.queueF with
  | nil =>
    rw [stepForward_eq_nil hsort]
    exact inv
  | cons c rest =>
    by_cases hsk : c.node = "" ∨ c.node ∈ st.visitedF
    · rw [stepForward_eq_skip hsort hsk]
      refine ⟨?_, ?_, ?_, ?_, ?_⟩
      · exact skip_inv inv.dirF hsort hsk
      · exact inv.dirB
      · exact inv.meetSome
      · exact inv.meetNone
      · intro hb qf hqf qb hqb
        exact inv.bestPair hb qf (sortQueue_rest_mem hsort hqf) qb hqb
    · rw [stepForward_eq_settle hsort hsk]
      push_neg at hsk
      obtain ⟨hne, hnv⟩ := hsk
      obtain ⟨hpop, dirF1⟩ := settle_inv (E := LinkF g) inv.dirF hsort hne hnv
      have hpop2 : st.distF c.node = c.dist := hpop
      have hcmem : c ∈ st.queueF := sortQueue_cons_self_mem hsort
      by_cases hmB : c.node ∈ st.visitedB
      · rw [if_pos hmB]
        by_cases htot : st.distF c.node + st.distB c.node < st.best
        · rw [if_pos htot]
          refine relaxF_assemble hw dirF1 inv.dirB rfl ?_ ?_ ?_ ?_
          · intro m hm
            have hmc : m = c.node := by simpa using hm.symm
            subst hmc
            exact ⟨List.mem_cons_self _ _, hmB, rfl⟩
          · intro hm
            cases hm
          · intro hb qf hqf qb hqb
            have h1 : st.distF c.node ≤ qf.dist := by
              rw [hpop2]
              exact sortQueue_head_le hsort qf (sortQueue_rest_mem hsort hqf)
            have h2 : st.distB c.node ≤ qb.dist := inv.dirB.vq c.node hmB qb hqb
            exact add_le_add h1 h2
          · intro hb qb hqb
            have h2 : st.distB c.node ≤ qb.dist := inv.dirB.vq c.node hmB qb hqb
            exact add_le_add_left h2 _
        · rw [if_neg htot]
          refine relaxF_assemble hw dirF1 inv.dirB rfl ?_ ?_ ?_ ?_
          · intro m hm
            rcases inv.meetSome m hm with ⟨mF, mB, hbeq⟩
            exact ⟨List.mem_cons_of_mem _ mF, mB, hbeq⟩
          · exact inv.meetNone
          · intro hb qf hqf qb hqb
            exact inv.bestPair hb qf (sortQueue_rest_mem hsort hqf) qb hqb
          · intro hb qb hqb
            have h1 : st.best ≤ c.dist + qb.dist := inv.bestPair hb c hcmem qb hqb
            rw [hpop2]
            exact h1
      · rw [if_neg hmB]
        refine relaxF_assemble hw dirF1 inv.dirB rfl ?_ ?_ ?_ ?_
        · intro m hm
          rcases inv.meetSome m hm with ⟨mF, mB, hbeq⟩
          exact ⟨List.mem_cons_of_mem _ mF, mB, hbeq⟩
        · exact inv.meetNone
        · intro hb qf hqf qb hqb
          exact inv.bestPair hb qf (sortQueue_rest_mem hsort hqf) qb hqb
        · intro hb qb hqb
          have h1 : st.best ≤ c.dist + qb.dist := inv.bestPair hb c hcmem qb hqb
          rw [hpop2]
          exact h1

end RouteServer

namespace RouteServer

theorem stepBackward_eq_nil {g : Graph} {st : BDState}
    (h : sortQueue st.queueB = []) : stepBackward g st = st := by
  unfold stepBackward
  rw [h]

theorem stepBackward_eq_skip {g : Graph} {st : BDState} {c : QEntry}
    {rest : List QEntry} (h : sortQueue st.queueB = c :: rest)
    (hsk : c.node = "" ∨ c.node ∈ st.visitedB) :
    stepBackward g st = { st with queueB := rest, pops := st.pops + 1 } := by
  unfold stepBackward
  rw [h]
  dsimp only
  rw [if_pos hsk]

theorem stepBackward_eq_settle {g : Graph} {st : BDState} {c : QEntry}
    {rest : List QEntry} (h : sortQueue st.queueB = c :: rest)
    (hsk : ¬(c.node = "" ∨ c.node ∈ st.visitedB)) :
    stepBackward g st =
      relaxB g c.node
        (if c.node ∈ st.visitedF then
          (if st.distF c.node + st.distB c.node < st.best then
            { st with queueB := rest, visitedB := c.node :: st.visitedB,
                      pops := st.pops + 1,
                      best := st.distF c.node + st.distB c.node,
                      meeting := some c.node }
          else
            { st with queueB := rest, visitedB := c.node :: st.visitedB,
                      pops := st.pops + 1 })
        else
          { st with queueB := rest, visitedB := c.node :: st.visitedB,
                    pops := st.pops + 1 }) := by
  unfold stepBackward
  rw [h]
  dsimp only
  rw [if_neg hsk]

theorem relaxB_assemble {g : Graph} {s e cur : NodeId} {st2 : BDState}
    (hw : NonnegWeights g)
    (dirF2 : DirInv (LinkF g) s (projF st2))
    (dirB2 : DirInv (LinkB g) e (projB st2))
    (hhead : st2.visitedB.head? = some cur)
    (meet2 : ∀ m, st2.meeting = some m →
      m ∈ st2.visitedF ∧ m ∈ st2.visitedB ∧ st2.best = st2.distF m + st2.distB m)
    (mn2 : st2.meeting = none → st2.best = ⊤)
    (bp2 : st2.best ≠ ⊤ →
      ∀ qf ∈ st2.queueF, ∀ qb ∈ st2.queueB, st2.best ≤ qf.dist + qb.dist)
    (hbest2 : st2.best ≠ ⊤ →
      ∀ qf ∈ st2.queueF, st2.best ≤ qf.dist + st2.distB cur) :
    BDInv g s e (relaxB g cur st2) := by
  rcases relaxB_spec g cur st2 with ⟨hB, hF, hbest, hmeet, _⟩
  have hl : ∀ x ∈ backPairs g cur, LinkB g cur x.1 x.2 ∧ 0 ≤ x.2 := by
    intro x hx
    exact ⟨backPairs_edgeFrom hx, backPairs_nonneg hw hx⟩
  rcases relaxMany_inv dirB2 hhead hl with ⟨inv3, hv3, hd3, hq3⟩
  have hqeq : (relaxB g cur st2).queueB =
      (relaxMany cur (backPairs g cur) (projB st2)).queue :=
    congrArg DirState.queue hB
  have hveq : (relaxB g cur st2).visitedB = st2.visitedB := by
    have h1 := congrArg DirState.visited hB
    rw [relaxMany_visited] at h1
    exact h1
  have hdeq : (relaxB g cur st2).distB =
      (relaxMany cur (backPairs g cur) (projB st2)).dist :=
    congrArg DirState.dist hB
  have hFq : (relaxB g cur st2).queueF = st2.queueF := congrArg DirState.queue hF
  have hFv : (relaxB g cur st2).visitedF = st2.visitedF := congrArg DirState.visited hF
  have hFd : (relaxB g cur st2).distF = st2.distF := congrArg DirState.dist hF
  constructor
  · rw [hF]
    exact dirF2
  · rw [hB]
    exact inv3
  · intro m hm
    rw [hmeet] at hm
    rcases meet2 m hm with ⟨mF, mB, hbeq⟩
    refine ⟨by rw [hFv]; exact mF, by rw [hveq]; exact mB, ?_⟩
    rw [hbest, hFd, hdeq, hd3 m mB]
    exact hbeq
  · intro hm
    rw [hmeet] at hm
    rw [hbest]
    exact mn2 hm
  · intro hb qf hqf qb hqb
    rw [hbest] at hb ⊢
    rw [hFq] at hqf
    rw [hqeq] at hqb
    rcases hq3 qb hqb with hqb2 | ⟨hqb2, hqb3⟩
    · exact bp2 hb qf hqf qb hqb2
    · have hcle : (projB st2).dist cur ≤ qb.dist := hqb3
      have h1 : st2.best ≤ qf.dist + st2.distB cur := hbest2 hb qf hqf
      have h2 : qf.dist + st2.distB cur ≤ qf.dist + qb.dist :=
        add_le_add_left hcle qf.dist
      exact le_trans h1 h2

theorem stepBackward_inv {g : Graph} {s e : NodeId} {st : BDState}
    (hw : NonnegWeights g) (inv : BDInv g s e st) :
    BDInv g s e (stepBackward g st) := by
  cases hsort : sortQueue st.queueB with
  | nil =>
    rw [stepBackward_eq_nil hsort]
    exact inv
  | cons c rest =>
    by_cases hsk : c.node = "" ∨ c.node ∈ st.visitedB
    · rw [stepBackward_eq_skip hsort hsk]
      refine ⟨?_, ?_, ?_, ?_, ?_⟩
      · exact inv.dirF
      · exact skip_inv inv.dirB hsort hsk
      · exact inv.meetSome
      · exact inv.meetNone
      · intro hb qf hqf qb hqb
        exact inv.bestPair hb qf hqf qb (sortQueue_rest_mem hsort hqb)
    · rw [stepBackward_eq_settle hsort hsk]
      push_neg at hsk
      obtain ⟨hne, hnv⟩ := hsk
      obtain ⟨hpop, dirB1⟩ := settle_inv (E := LinkB g) inv.dirB hsort hne hnv
      have hpop2 : st.distB c.node = c.dist := hpop
      have hcmem : c ∈ st.queueB := sortQueue_cons_self_mem hsort
      by_cases hmF : c.node ∈ st.visitedF
      · rw [if_pos hmF]
        by_cases htot : st.distF c.node + st.distB c.node < st.best
        · rw [if_pos htot]
          refine relaxB_assemble hw inv.dirF dirB1 rfl ?_ ?_ ?_ ?_
          · intro m hm
            have hmc : m = c.node := by simpa using hm.symm
            subst hmc
            exact ⟨hmF, List.mem_cons_self _ _, rfl⟩
          · intro hm
            cases hm
          · intro hb qf hqf qb hqb
            have h1 : st.distF c.node ≤ qf.dist := inv.dirF.vq c.node hmF qf hqf
            have h2 : st.distB c.node ≤ qb.dist := by
              rw [hpop2]
              exact sortQueue_head_le hsort qb (sortQueue_rest_mem hsort hqb)
            exact add_le_add h1 h2
          · intro hb qf hqf
            have h1 : st.distF c.node ≤ qf.dist := inv.dirF.vq c.node hmF qf hqf
            exact add_le_add_right h1 _
        · rw [if_neg htot]
          refine relaxB_assemble hw inv.dirF dirB1 rfl ?_ ?_ ?_ ?_
          · intro m hm
            rcases inv.meetSome m hm with ⟨mF, mB, hbeq⟩
            exact ⟨mF, List.mem_cons_of_mem _ mB, hbeq⟩
          · exact inv.meetNone
          · intro hb qf hqf qb hqb
            exact inv.bestPair hb qf hqf qb (sortQueue_rest_mem hsort hqb)
          · intro hb qf hqf
            have h1 : st.best ≤ qf.dist + c.dist := inv.bestPair hb qf hqf c hcmem
            rw [hpop2]
            exact h1
      · rw [if_neg hmF]
        refine relaxB_assemble hw inv.dirF dirB1 rfl ?_ ?_ ?_ ?_
        · intro m hm
          rcases inv.meetSome m hm with ⟨mF, mB, hbeq⟩
          exact ⟨mF, List.mem_cons_of_mem _ mB, hbeq⟩
        · exact inv.meetNone
        · intro hb qf hqf qb hqb
          exact inv.bestPair hb qf hqf qb (sortQueue_rest_mem hsort hqb)
        · intro hb qf hqf
          have h1 : st.best ≤ qf.dist + c.dist := inv.bestPair hb qf hqf c hcmem
          rw [hpop2]
          exact h1

theorem initBD_inv (g : Graph) (s e : NodeId) : BDInv g s e (initBD s e) := by
  have dir : ∀ (E : NodeId → NodeId → ℚ → Prop) (r : NodeId),
      DirInv E r ⟨fun n => if n = r then 0 else ⊤, fun _ => none, [],
        [⟨r, 0⟩]⟩ := by
    intro E r
    constructor
    · exact List.nodup_nil
    · intro u hu; cases hu
    · intro u hu; cases hu
    · exact List.Pairwise.nil
    · intro u hu; cases hu
    · simp
    · intro x
      by_cases hx : x = r <;> simp [hx]
    · intro u hu; cases hu
    · intro n _ p hp
      cases hp
    · intro n _ _ hnr
      simp [hnr]
    · intro q hq
      have hq2 : q = ⟨r, 0⟩ := by simpa using hq
      subst hq2
      simp
    · intro q hq
      have hq2 : q = ⟨r, 0⟩ := by simpa using hq
      subst hq2
      simp
    · intro n _ hne hfin
      by_cases hnr : n = r
      · subst hnr
        refine ⟨⟨n, 0⟩, List.mem_cons_self _ _, rfl, by simp⟩
      · simp [hnr] at hfin
    · intro u hu; cases hu
  refine ⟨dir (LinkF g) s, dir (LinkB g) e, ?_, ?_, ?_⟩
  · intro m hm
    cases hm
  · intro _
    rfl
  · intro hb
    exact absurd rfl hb

theorem stepBD_inv {g : Graph} {s e : NodeId} {st : BDState}
    (hw : NonnegWeights g) (inv : BDInv g s e st) :
    BDInv g s e (stepBD g st) := by
  unfold stepBD
  split
  · exact inv
  · split
    · exact ⟨inv.dirF, inv.dirB, inv.meetSome, inv.meetNone, inv.bestPair⟩
    · split
      · exact ⟨inv.dirF, inv.dirB, inv.meetSome, inv.meetNone, inv.bestPair⟩
      · split
        · exact stepForward_inv hw inv
        · split
          · exact stepBackward_inv hw inv
          · exact inv

theorem stepNBD_inv {g : Graph} {s e : NodeId} (hw : NonnegWeights g)
    (n : Nat) {st : BDState} (inv : BDInv g s e st) :
    BDInv g s e (stepNBD g n st) := by
  induction n generalizing st with
  | zero => exact inv
  | succ k ih => exact ih (stepBD_inv hw inv)

end RouteServer

namespace RouteServer

theorem relWalk_congr {E : NodeId → NodeId → ℚ → Prop} {L : List NodeId}
    {c c2 : ℚ} (h : c = c2) (hw : RelWalk E L c) : RelWalk E L c2 := h ▸ hw

theorem relWalk_ne_nil {E : NodeId → NodeId → ℚ → Prop} {L : List NodeId} {c : ℚ}
    (hw : RelWalk E L c) : L ≠ [] := by
  cases hw <;> simp

theorem relWalk_append_one {E : NodeId → NodeId → ℚ → Prop} {L : List NodeId}
    {c : ℚ} (hw : RelWalk E L c) :
    ∀ {p u : NodeId} {w : ℚ}, L.getLast? = some p → E p u w →
      RelWalk E (L ++ [u]) (c + w) := by
  induction hw with
  | single a =>
    intro p u w hl hE
    have hap : a = p := by simpa using hl
    subst hap
    exact relWalk_congr (by ring) (RelWalk.cons hE (RelWalk.single u))
  | cons hE1 hw1 ih =>
    intro p u w hl hE
    rename_i a b w1 c1 rest
    have hl2 : (b :: rest).getLast? = some p := by
      rw [← hl]
      exact List.getLast?_cons_cons.symm
    have h2 := ih hl2 hE
    exact relWalk_congr (by ring) (RelWalk.cons hE1 h2)

theorem nodup_split_unique {α : Type} {u : α} :
    ∀ {l l₁ l₂ m₁ m₂ : List α}, l.Nodup → l = l₁ ++ u :: l₂ → l = m₁ ++ u :: m₂ →
      l₁ = m₁ ∧ l₂ = m₂ := by
  intro l l₁
  induction l₁ generalizing l with
  | nil =>
    intro l₂ m₁ m₂ hnd h1 h2
    cases m₁ with
    | nil =>
      simp only [List.nil_append] at h1 h2
      rw [h1] at h2
      exact ⟨rfl, (List.cons.injEq _ _ _ _ ▸ h2).2⟩
    | cons b m₁t =>
      rw [h1] at hnd h2
      simp only [List.nil_append, List.cons_append] at h2
      have hb : u = b := (List.cons.injEq _ _ _ _ ▸ h2).1
      have hrest : l₂ = m₁t ++ u :: m₂ := (List.cons.injEq _ _ _ _ ▸ h2).2
      have hmem : u ∈ l₂ := by
        rw [hrest]
        exact List.mem_append_right m₁t (List.mem_cons_self u m₂)
      exact absurd hmem (List.nodup_cons.mp hnd).1
  | cons a l₁t ih =>
    intro l₂ m₁ m₂ hnd h1 h2
    cases m₁ with
    | nil =>
      rw [h2] at hnd h1
      simp only [List.nil_append, List.cons_append] at h1
      have hb : u = a := (List.cons.injEq _ _ _ _ ▸ h1).1
      have hrest : m₂ = l₁t ++ u :: l₂ := (List.cons.injEq _ _ _ _ ▸ h1).2
      have hmem : u ∈ m₂ := by
        rw [hrest]
        exact List.mem_append_right l₁t (List.mem_cons_self u l₂)
      exact absurd hmem (List.nodup_cons.mp hnd).1
    | cons b m₁t =>
      rw [h1] at hnd h2
      simp only [List.cons_append] at h2
      have hab : a = b := (List.cons.injEq _ _ _ _ ▸ h2).1
      have hrest : l₁t ++ u :: l₂ = m₁t ++ u :: m₂ :=
        (List.cons.injEq _ _ _ _ ▸ h2).2
      have hnd2 : (l₁t ++ u :: l₂).Nodup := (List.nodup_cons.mp hnd).2
      rcases ih hnd2 rfl hrest with ⟨e1, e2⟩
      exact ⟨by rw [hab, e1], e2⟩

theorem chainUp_empty (prev : NodeId → Option NodeId) :
    ∀ k, chainUp prev k "" = [] := by
  intro k
  cases k with
  | zero => rfl
  | succ n => simp [chainUp]

theorem chainDown_empty (prev : NodeId → Option NodeId) :
    ∀ k, chainDown prev k "" = [] := by
  intro k
  cases k with
  | zero => rfl
  | succ n => simp [chainDown]

end RouteServer

namespace RouteServer

theorem head?_append_left {α : Type} {l : List α} (l2 : List α) (h : l ≠ []) :
    (l ++ l2).head? = l.head? := by
  cases l with
  | nil => exact absurd rfl h
  | cons a t => rfl

theorem getLast?_cons_ne_nil {α : Type} {l : List α} (a : α) (h : l ≠ []) :
    (a :: l).getLast? = l.getLast? := by
  cases l with
  | nil => exact absurd rfl h
  | cons b t => exact List.getLast?_cons_cons

theorem chainUp_spec {E : NodeId → NodeId → ℚ → Prop} {r : NodeId} {d : DirState}
    (inv : DirInv E r d) :
    ∀ (fuel : Nat) (u : NodeId) (l₁ l₂ : List NodeId),
      d.visited = l₁ ++ u :: l₂ → l₂.length < fuel →
      ∃ (cq : ℚ) (L2 : List NodeId),
        chainUp d.prev fuel u = L2 ++ [u] ∧
        (cq : WithTop ℚ) = d.dist u ∧
        RelWalk E (chainUp d.prev fuel u) cq ∧
        (chainUp d.prev fuel u).head? = some r ∧
        (∀ x ∈ L2, x ∈ l₂) := by
  intro fuel
  induction fuel with
  | zero =>
    intro u l₁ l₂ _ hlen
    omega
  | succ k ih =>
    intro u l₁ l₂ hsplit hlen
    have humem : u ∈ d.visited := by
      rw [hsplit]
      exact List.mem_append_right _ (List.mem_cons_self _ _)
    have hune : u ≠ "" := inv.vne u humem
    have hunf : chainUp d.prev (k + 1) u =
        chainUp d.prev k (prevStr d.prev u) ++ [u] := by
      simp only [chainUp, if_neg hune]
    cases hp : d.prev u with
    | none =>
      have hur : u = r := inv.root u humem hp
      have hps : prevStr d.prev u = "" := by unfold prevStr; rw [hp]
      rw [hunf, hps, chainUp_empty]
      refine ⟨0, [], by simp, ?_, ?_, ?_, by simp⟩
      · rw [hur, inv.distRoot]
        simp
      · simpa using RelWalk.single u
      · rw [hur]
        rfl
    | some p =>
      rcases inv.chain u humem p hp with ⟨⟨m₁, m₂, hm, hpm⟩, w2, hE2, heq⟩
      obtain ⟨he1, he2⟩ := nodup_split_unique inv.vnodup hsplit hm
      subst he2
      rcases List.append_of_mem hpm with ⟨a₁, a₂, hla⟩
      have hsplit3 : d.visited = (l₁ ++ u :: a₁) ++ p :: a₂ := by
        rw [hsplit, hla]
        simp
      have hlen2 : a₂.length < k := by
        rw [hla] at hlen
        simp only [List.length_append, List.length_cons] at hlen
        omega
      obtain ⟨cq, L2, hLeq, hcq, hwalk, hhead, helem⟩ :=
        ih p (l₁ ++ u :: a₁) a₂ hsplit3 hlen2
      have hps : prevStr d.prev u = p := by unfold prevStr; rw [hp]
      rw [hunf, hps]
      have hne2 : chainUp d.prev k p ≠ [] := by
        rw [hLeq]
        simp
      refine ⟨cq + w2, chainUp d.prev k p, rfl, ?_, ?_, ?_, ?_⟩
      · rw [WithTop.coe_add, hcq]
        exact heq.symm
      · refine relWalk_append_one hwalk ?_ hE2
        rw [hLeq]
        exact List.getLast?_concat _
      · rw [head?_append_left _ hne2]
        exact hhead
      · intro x hx
        rw [hla]
        rw [hLeq] at hx
        rcases List.mem_append.mp hx with hx2 | hx2
        · exact List.mem_append_right a₁ (List.mem_cons_of_mem p (helem x hx2))
        · have hxp : x = p := by simpa using hx2
          subst hxp
          exact List.mem_append_right a₁ (List.mem_cons_self x a₂)

theorem chainDown_spec {E : NodeId → NodeId → ℚ → Prop} {r : NodeId} {d : DirState}
    (inv : DirInv E r d) :
    ∀ (fuel : Nat) (u : NodeId) (l₁ l₂ : List NodeId),
      d.visited = l₁ ++ u :: l₂ → l₂.length < fuel →
      ∃ (cq : ℚ) (D2 : List NodeId),
        chainDown d.prev fuel u = u :: D2 ∧
        (cq : WithTop ℚ) = d.dist u ∧
        RelWalk (fun a b w => E b a w) (chainDown d.prev fuel u) cq ∧
        (chainDown d.prev fuel u).getLast? = some r ∧
        (∀ x ∈ D2, x ∈ l₂) := by
  intro fuel
  induction fuel with
  | zero =>
    intro u l₁ l₂ _ hlen
    omega
  | succ k ih =>
    intro u l₁ l₂ hsplit hlen
    have humem : u ∈ d.visited := by
      rw [hsplit]
      exact List.mem_append_right _ (List.mem_cons_self _ _)
    have hune : u ≠ "" := inv.vne u humem
    have hunf : chainDown d.prev (k + 1) u =
        u :: chainDown d.prev k (prevStr d.prev u) := by
      simp only [chainDown, if_neg hune]
    cases hp : d.prev u with
    | none =>
      have hur : u = r := inv.root u humem hp
      have hps : prevStr d.prev u = "" := by unfold prevStr; rw [hp]
      rw [hunf, hps, chainDown_empty]
      refine ⟨0, [], rfl, ?_, ?_, ?_, by simp⟩
      · rw [hur, inv.distRoot]
        simp
      · exact RelWalk.single u
      · rw [hur]
        rfl
    | some p =>
      rcases inv.chain u humem p hp with ⟨⟨m₁, m₂, hm, hpm⟩, w2, hE2, heq⟩
      obtain ⟨he1, he2⟩ := nodup_split_unique inv.vnodup hsplit hm
      subst he2
      rcases List.append_of_mem hpm with ⟨a₁, a₂, hla⟩
      have hsplit3 : d.visited = (l₁ ++ u :: a₁) ++ p :: a₂ := by
        rw [hsplit, hla]
        simp
      have hlen2 : a₂.length < k := by
        rw [hla] at hlen
        simp only [List.length_append, List.length_cons] at hlen
        omega
      obtain ⟨cq, D2, hDeq, hcq, hwalk, hlast, helem⟩ :=
        ih p (l₁ ++ u :: a₁) a₂ hsplit3 hlen2
      have hps : prevStr d.prev u = p := by unfold prevStr; rw [hp]
      rw [hunf, hps]
      have hne2 : chainDown d.prev k p ≠ [] := by
        rw [hDeq]
        simp
      refine ⟨w2 + cq, chainDown d.prev k p, rfl, ?_, ?_, ?_, ?_⟩
      · rw [WithTop.coe_add, hcq, add_comm]
        exact heq.symm
      · have hwalk2 : RelWalk (fun a b w => E b a w) (p :: D2) cq := hDeq ▸ hwalk
        have h3 := RelWalk.cons (E := fun a b w => E b a w) hE2 hwalk2
        rw [hDeq]
        exact h3
      · rw [getLast?_cons_ne_nil u hne2]
        exact hlast
      · intro x hx
        rw [hla]
        rw [hDeq] at hx
        rcases List.mem_cons.mp hx with hx2 | hx2
        · subst hx2
          exact List.mem_append_right a₁ (List.mem_cons_self x a₂)
        · exact List.mem_append_right a₁ (List.mem_cons_of_mem p (helem x hx2))

end RouteServer

namespace RouteServer

theorem relWalkF_walkCost {g : Graph} {L : List NodeId} {c : ℚ}
    (h : RelWalk (LinkF g) L c) : WalkCost g L c := by
  induction h with
  | single a => exact WalkCost.single a
  | cons hE hw ih => exact WalkCost.cons hE ih

theorem relWalkB_walkCost {g : Graph} {L : List NodeId} {c : ℚ}
    (h : RelWalk (fun a b w => LinkB g b a w) L c) : WalkCost g L c := by
  induction h with
  | single a => exact WalkCost.single a
  | cons hE hw ih => exact WalkCost.cons hE ih

theorem walkCost_ne_nil {g : Graph} {L : List NodeId} {c : ℚ}
    (h : WalkCost g L c) : L ≠ [] := by
  cases h <;> simp

theorem walkCost_congr {g : Graph} {L : List NodeId} {c c2 : ℚ} (h : c = c2)
    (hw : WalkCost g L c) : WalkCost g L c2 := h ▸ hw

theorem walkCost_append {g : Graph} {L : List NodeId} {c1 : ℚ}
    (h1 : WalkCost g L c1) :
    ∀ {a b : NodeId} {w c2 : ℚ} {T : List NodeId}, L.getLast? = some a →
      EdgeFrom g a b w → WalkCost g (b :: T) c2 →
      WalkCost g (L ++ b :: T) (c1 + (w + c2)) := by
  induction h1 with
  | single x =>
    intro a b w c2 T hl hE h2
    have hax : x = a := by simpa using hl
    subst hax
    exact walkCost_congr (by ring) (WalkCost.cons hE h2)
  | cons hE1 hw1 ih =>
    intro a b w c2 T hl hE h2
    rename_i x y w1 cr rest
    have hl2 : (y :: rest).getLast? = some a := by
      rw [← hl]
      exact List.getLast?_cons_cons.symm
    have h3 := ih hl2 hE h2
    exact walkCost_congr (by ring) (WalkCost.cons hE1 h3)

theorem getLast?_append_ne_nil {α : Type} (l : List α) {l2 : List α}
    (h : l2 ≠ []) : (l ++ l2).getLast? = l2.getLast? := by
  induction l with
  | nil => rfl
  | cons a t ih =>
    have hne : t ++ l2 ≠ [] := by
      intro h2
      rcases List.append_eq_nil.mp h2 with ⟨_, h3⟩
      exact h h3
    rw [List.cons_append, getLast?_cons_ne_nil a hne]
    exact ih

end RouteServer

namespace RouteServer

theorem extractPath_some {st : BDState} {m : NodeId} (hm : st.meeting = some m) :
    extractPath st = chainUp st.prevF (st.visitedF.length + 1) m ++
      chainDown st.prevB (st.visitedB.length + 1) (prevStr st.prevB m) := by
  unfold extractPath
  rw [hm]

/-- C3: for every graph with nonnegative weights and every pair
`startId ≠ endId` for which `bidirectionalDijkstra` returns a non-empty path
with finite distance, the first path element is `startId`, the last is
`endId`, the meeting node appears exactly once, every consecutive pair of
path elements is a real directed edge of the graph, and the chosen edge
weights sum exactly to the reported distance (exact rational equality, which
is stronger than equality within floating-point tolerance). -/
theorem c3_reconstruction_invariants (g : Graph) (s e : NodeId)
    (hw : NonnegWeights g) (hse : s ≠ e)
    (hne : (bidirectionalDijkstra g s e).path ≠ [])
    (hfin : (bidirectionalDijkstra g s e).distance ≠ ⊤) :
    (bidirectionalDijkstra g s e).path.head? = some s ∧
      (bidirectionalDijkstra g s e).path.getLast? = some e ∧
      (∃ m, (bidiFinal g s e).meeting = some m ∧
        (bidirectionalDijkstra g s e).path.count m = 1) ∧
      ∃ c : ℚ, WalkCost g (bidirectionalDijkstra g s e).path c ∧
        (bidirectionalDijkstra g s e).distance = (c : WithTop ℚ) := by
  by_cases hdom : s ∈ nodeIds g ∧ e ∈ nodeIds g
  · have hres : bidirectionalDijkstra g s e =
        (if (bidiFinal g s e).meeting.isSome then
          ⟨extractPath (bidiFinal g s e), (bidiFinal g s e).best⟩
        else ⟨[], ⊤⟩) := by
      unfold bidirectionalDijkstra
      rw [if_neg hse, if_pos hdom]
    have inv : BDInv g s e (bidiFinal g s e) :=
      stepNBD_inv hw (bidiFuel g) (initBD_inv g s e)
    cases hm : (bidiFinal g s e).meeting with
    | none =>
      exfalso
      apply hne
      rw [hres, hm]
      rfl
    | some m =>
      have hres2 : bidirectionalDijkstra g s e =
          ⟨extractPath (bidiFinal g s e), (bidiFinal g s e).best⟩ := by
        rw [hres, hm]
        rfl
      rcases inv.meetSome m hm with ⟨mF, mB, hbesteq⟩
      rcases List.append_of_mem mF with ⟨f₁, f₂, hfsplit⟩
      have hflen : f₂.length < (bidiFinal g s e).visitedF.length + 1 := by
        rw [hfsplit]
        simp only [List.length_append, List.length_cons]
        omega
      obtain ⟨cqF, L2, hLeq0, hcqF, hwalkF, hheadF0, helemF⟩ :=
        chainUp_spec inv.dirF ((bidiFinal g s e).visitedF.length + 1) m f₁ f₂
          hfsplit hflen
      have hLeq : chainUp (bidiFinal g s e).prevF
          ((bidiFinal g s e).visitedF.length + 1) m = L2 ++ [m] := hLeq0
      have hheadF : (chainUp (bidiFinal g s e).prevF
          ((bidiFinal g s e).visitedF.length + 1) m).head? = some s := hheadF0
      have hwalkF2 : WalkCost g (chainUp (bidiFinal g s e).prevF
          ((bidiFinal g s e).visitedF.length + 1) m) cqF :=
        relWalkF_walkCost hwalkF
      have hcqF2 : (cqF : WithTop ℚ) = (bidiFinal g s e).distF m := hcqF
      have hnodupF : (f₁ ++ m :: f₂).Nodup := by
        have h0 := inv.dirF.vnodup
        rw [show (projF (bidiFinal g s e)).visited = (bidiFinal g s e).visitedF
          from rfl, hfsplit] at h0
        exact h0
      have hmf2 : m ∉ f₂ :=
        (List.nodup_cons.mp (List.nodup_append.mp hnodupF).2.1).1
      have hcountF : (chainUp (bidiFinal g s e).prevF
          ((bidiFinal g s e).visitedF.length + 1) m).count m = 1 := by
        rw [hLeq, List.count_append]
        have hz : L2.count m = 0 :=
          List.count_eq_zero.mpr (fun h => hmf2 (helemF m h))
        rw [hz]
        simp
      have hCUne : chainUp (bidiFinal g s e).prevF
          ((bidiFinal g s e).visitedF.length + 1) m ≠ [] := by
        rw [hLeq]
        simp
      cases hpB : (bidiFinal g s e).prevB m with
      | none =>
        have hme : m = e := inv.dirB.root m mB hpB
        have hps : prevStr (bidiFinal g s e).prevB m = "" := by
          unfold prevStr
          rw [hpB]
        have hpath : extractPath (bidiFinal g s e) =
            chainUp (bidiFinal g s e).prevF
              ((bidiFinal g s e).visitedF.length + 1) m := by
          rw [extractPath_some hm, hps, chainDown_empty, List.append_nil]
        refine ⟨?_, ?_, ⟨m, rfl, ?_⟩, cqF, ?_, ?_⟩
        · rw [hres2]
          dsimp only
          rw [hpath]
          exact hheadF
        · rw [hres2]
          dsimp only
          rw [hpath, hLeq, List.getLast?_concat, hme]
        · rw [hres2]
          dsimp only
          rw [hpath]
          exact hcountF
        · rw [hres2]
          dsimp only
          rw [hpath]
          exact hwalkF2
        · rw [hres2]
          dsimp only
          rw [hbesteq]
          have hdB : (bidiFinal g s e).distB m = 0 := by
            rw [hme]
            exact inv.dirB.distRoot
          rw [hdB, add_zero, ← hcqF2]
      | some p =>
        rcases inv.dirB.chain m mB p hpB with ⟨⟨b₁, b₂, hbsplit, hpb2⟩, wj, hEj, heqj⟩
        rcases List.append_of_mem hpb2 with ⟨c₁, c₂, hcsplit⟩
        have hsplitB : (bidiFinal g s e).visitedB = (b₁ ++ m :: c₁) ++ p :: c₂ := by
          have h1 : (bidiFinal g s e).visitedB = b₁ ++ m :: b₂ := hbsplit
          rw [h1, hcsplit]
          simp
        have hlenB : c₂.length < (bidiFinal g s e).visitedB.length + 1 := by
          rw [hsplitB]
          simp only [List.length_append, List.length_cons]
          omega
        obtain ⟨cqB, D2, hDeq0, hcqB, hwalkB, hlastB0, helemB⟩ :=
          chainDown_spec inv.dirB ((bidiFinal g s e).visitedB.length + 1) p
            (b₁ ++ m :: c₁) c₂ hsplitB hlenB
        have hDeq : chainDown (bidiFinal g s e).prevB
            ((bidiFinal g s e).visitedB.length + 1) p = p :: D2 := hDeq0
        have hlastB : (chainDown (bidiFinal g s e).prevB
            ((bidiFinal g s e).visitedB.length + 1) p).getLast? = some e := hlastB0
        have hcqB2 : (cqB : WithTop ℚ) = (bidiFinal g s e).distB p := hcqB
        have heqj2 : (bidiFinal g s e).distB m =
            (bidiFinal g s e).distB p + (wj : WithTop ℚ) := heqj
        have hEj2 : EdgeFrom g m p wj := hEj
        have hps : prevStr (bidiFinal g s e).prevB m = p := by
          unfold prevStr
          rw [hpB]
        have hpath : extractPath (bidiFinal g s e) =
            chainUp (bidiFinal g s e).prevF
              ((bidiFinal g s e).visitedF.length + 1) m ++
            chainDown (bidiFinal g s e).prevB
              ((bidiFinal g s e).visitedB.length + 1) p := by
          rw [extractPath_some hm, hps]
        have hCDne : chainDown (bidiFinal g s e).prevB
            ((bidiFinal g s e).visitedB.length + 1) p ≠ [] := by
          rw [hDeq]
          simp
        have hnodupB : (b₁ ++ m :: b₂).Nodup := hbsplit ▸ inv.dirB.vnodup
        have hmb2 : m ∉ b₂ :=
          (List.nodup_cons.mp (List.nodup_append.mp hnodupB).2.1).1
        have hmp : m ≠ p := by
          intro h
          exact hmb2 (h ▸ hpb2)
        have hmD2 : m ∉ D2 := by
          intro h
          have h2 : m ∈ c₂ := helemB m h
          apply hmb2
          rw [hcsplit]
          exact List.mem_append_right c₁ (List.mem_cons_of_mem p h2)
        have hcountD : (chainDown (bidiFinal g s e).prevB
            ((bidiFinal g s e).visitedB.length + 1) p).count m = 0 := by
          rw [hDeq]
          refine List.count_eq_zero.mpr ?_
          intro h
          rcases List.mem_cons.mp h with h2 | h2
          · exact hmp h2
          · exact hmD2 h2
        refine ⟨?_, ?_, ⟨m, rfl, ?_⟩, cqF + (wj + cqB), ?_, ?_⟩
        · rw [hres2]
          dsimp only
          rw [hpath, head?_append_left _ hCUne]
          exact hheadF
        · rw [hres2]
          dsimp only
          rw [hpath, getLast?_append_ne_nil _ hCDne]
          exact hlastB
        · rw [hres2]
          dsimp only
          rw [hpath, List.count_append, hcountF, hcountD]
        · rw [hres2]
          dsimp only
          rw [hpath, hDeq]
          refine walkCost_append hwalkF2 ?_ hEj2 ?_
          · rw [hLeq]
            exact List.getLast?_concat _
          · have h3 : WalkCost g (chainDown (bidiFinal g s e).prevB
                ((bidiFinal g s e).visitedB.length + 1) p) cqB :=
              relWalkB_walkCost hwalkB
            rw [hDeq] at h3
            exact h3
        · rw [hres2]
          dsimp only
          rw [hbesteq, heqj2, ← hcqF2, ← hcqB2]
          rw [WithTop.coe_add, WithTop.coe_add]
          rw [add_comm (cqB : WithTop ℚ)]
  · exfalso
    apply hne
    unfold bidirectionalDijkstra
    rw [if_neg hse, if_neg hdom]

end RouteServer

namespace RouteServer

theorem breakIffCriterion {g : Graph} {s e : NodeId} {st : BDState}
    (inv : BDInv g s e st) :
    (st.best ≤ headDist st.queueF + headDist st.queueB) ↔
      (st.best ≤ minDist st.queueF + minDist st.queueB) := by
  have hfinF : ∀ x ∈ st.queueF, x.dist ≠ ⊤ := fun x hx => inv.dirF.qfin x hx
  have hfinB : ∀ x ∈ st.queueB, x.dist ≠ ⊤ := fun x hx => inv.dirB.qfin x hx
  constructor
  · intro h
    by_cases hb : st.best = ⊤
    · rw [hb] at h ⊢
      have htop : headDist st.queueF + headDist st.queueB = ⊤ := top_le_iff.mp h
      rcases WithTop.add_eq_top.mp htop with hF | hB
      · have hqF : st.queueF = [] := (headDist_eq_top hfinF).mp hF
        rw [hqF]
        simp [minDist]
      · have hqB : st.queueB = [] := (headDist_eq_top hfinB).mp hB
        rw [hqB]
        simp [minDist]
    · cases hqF : st.queueF with
      | nil => simp [minDist]
      | cons a as =>
        cases hqB : st.queueB with
        | nil => simp [minDist]
        | cons b bs =>
          rcases minDist_mem (q := a :: as) (by simp) with ⟨xf, hxf, hmf⟩
          rcases minDist_mem (q := b :: bs) (by simp) with ⟨xb, hxb, hmb⟩
          rw [hmf, hmb]
          exact inv.bestPair hb xf (hqF ▸ hxf) xb (hqB ▸ hxb)
  · intro h
    exact le_trans h
      (add_le_add (minDist_le_headDist st.queueF) (minDist_le_headDist st.queueB))

theorem stepForward_done {g : Graph} (st : BDState) :
    (stepForward g st).done = st.done := by
  cases hsort : sortQueue st.queueF with
  | nil => rw [stepForward_eq_nil hsort]
  | cons c rest =>
    by_cases hsk : c.node = "" ∨ c.node ∈ st.visitedF
    · rw [stepForward_eq_skip hsort hsk]
    · rw [stepForward_eq_settle hsort hsk]
      rcases relaxF_spec g c.node _ with ⟨_, _, _, _, h5⟩
      rw [h5]
      by_cases hmB : c.node ∈ st.visitedB
      · rw [if_pos hmB]
        by_cases htot : st.distF c.node + st.distB c.node < st.best
        · rw [if_pos htot]
        · rw [if_neg htot]
      · rw [if_neg hmB]

theorem stepBackward_done {g : Graph} (st : BDState) :
    (stepBackward g st).done = st.done := by
  cases hsort : sortQueue st.queueB with
  | nil => rw [stepBackward_eq_nil hsort]
  | cons c rest =>
    by_cases hsk : c.node = "" ∨ c.node ∈ st.visitedB
    · rw [stepBackward_eq_skip hsort hsk]
    · rw [stepBackward_eq_settle hsort hsk]
      rcases relaxB_spec g c.node _ with ⟨_, _, _, _, h5⟩
      rw [h5]
      by_cases hmF : c.node ∈ st.visitedF
      · rw [if_pos hmF]
        by_cases htot : st.distF c.node + st.distB c.node < st.best
        · rw [if_pos htot]
        · rw [if_neg htot]
      · rw [if_neg hmF]

/-- C2 (amended): at every reachable live state of the main loop of
`bidirectionalDijkstra`, the iteration exits (`done` becomes true) exactly
when the sum of the two true frontier minima reaches the best candidate, the
minimum of an empty frontier counting as `Infinity`, or when both queues are
empty.  The quantities the source actually compares at the stop check are
`queueForward[0].dist` and `queueBackward[0].dist` of the unsorted arrays,
which can differ from the true minima (see the counterexample); the exit
decision nevertheless coincides with the true-minima criterion, because both
head values dominate the minima and, once a meeting candidate exists, the
best candidate never exceeds any cross sum of queue entries.  The criterion
itself cannot reject a non-minimal candidate path, which claim C1 shows. -/
theorem c2_stop_criterion (g : Graph) (s e : NodeId) (hw : NonnegWeights g)
    (n : Nat) (hlive : (stepNBD g n (initBD s e)).done = false) :
    ((stepBD g (stepNBD g n (initBD s e))).done = true ↔
      ((stepNBD g n (initBD s e)).best ≤
          minDist (stepNBD g n (initBD s e)).queueF +
            minDist (stepNBD g n (initBD s e)).queueB ∨
        ((stepNBD g n (initBD s e)).queueF = [] ∧
          (stepNBD g n (initBD s e)).queueB = []))) := by
  have inv : BDInv g s e (stepNBD g n (initBD s e)) :=
    stepNBD_inv hw n (initBD_inv g s e)
  have hiff := breakIffCriterion inv
  constructor
  · intro hdone
    unfold stepBD at hdone
    rw [if_neg (by rw [hlive]; simp)] at hdone
    by_cases hemp : (stepNBD g n (initBD s e)).queueF = [] ∧
        (stepNBD g n (initBD s e)).queueB = []
    · exact Or.inr hemp
    · rw [if_neg hemp] at hdone
      by_cases hbr : (stepNBD g n (initBD s e)).best ≤
          headDist (stepNBD g n (initBD s e)).queueF +
            headDist (stepNBD g n (initBD s e)).queueB
      · exact Or.inl (hiff.mp hbr)
      · rw [if_neg hbr] at hdone
        exfalso
        by_cases h4 : (stepNBD g n (initBD s e)).queueF ≠ [] ∧
            headDist (stepNBD g n (initBD s e)).queueF ≤
              headDist (stepNBD g n (initBD s e)).queueB
        · rw [if_pos h4] at hdone
          rw [stepForward_done, hlive] at hdone
          cases hdone
        · rw [if_neg h4] at hdone
          by_cases h5 : (stepNBD g n (initBD s e)).queueB ≠ []
          · rw [if_pos h5] at hdone
            rw [stepBackward_done, hlive] at hdone
            cases hdone
          · rw [if_neg h5] at hdone
            rw [hlive] at hdone
            cases hdone
  · intro hcrit
    unfold stepBD
    rw [if_neg (by rw [hlive]; simp)]
    by_cases hemp : (stepNBD g n (initBD s e)).queueF = [] ∧
        (stepNBD g n (initBD s e)).queueB = []
    · rw [if_pos hemp]
    · rw [if_neg hemp]
      have hbr : (stepNBD g n (initBD s e)).best ≤
          headDist (stepNBD g n (initBD s e)).queueF +
            headDist (stepNBD g n (initBD s e)).queueB := by
        rcases hcrit with hcrit | hcrit
        · exact hiff.mpr hcrit
        · exact absurd hcrit hemp
      rw [if_pos hbr]

/-- C2 counterexample: on the graph `A → C (1)`, `B → D (10)`, `B → E (2)`,
`C → D (4)` with query `A → D`, the loop state at the stop check that
terminates the run has backward queue `[{B, 10}, {C, 4}]`: the compared
quantity `queueBackward[0].dist` is `10`, while the true minimum tentative
distance of that frontier is `4`, so the quantities compared at the stop
check are not the true minima of the frontiers. -/
theorem c2_counterexample :
    (stepNBD gC2 4 (initBD "A" "D")).done = false ∧
      (stepBD gC2 (stepNBD gC2 4 (initBD "A" "D"))).done = true ∧
      (stepNBD gC2 4 (initBD "A" "D")).best ≤
        headDist (stepNBD gC2 4 (initBD "A" "D")).queueF +
          headDist (stepNBD gC2 4 (initBD "A" "D")).queueB ∧
      (stepNBD gC2 4 (initBD "A" "D")).queueB = [⟨"B", 10⟩, ⟨"C", 4⟩] ∧
      headDist (stepNBD gC2 4 (initBD "A" "D")).queueB = (10 : ℚ) ∧
      minDist (stepNBD gC2 4 (initBD "A" "D")).queueB = (4 : ℚ) ∧
      headDist (stepNBD gC2 4 (initBD "A" "D")).queueB ≠
        minDist (stepNBD gC2 4 (initBD "A" "D")).queueB := by
  with_unfolding_all decide

theorem c2_stop_criterion_witness :
    NonnegWeights gC2 ∧
      (stepNBD gC2 4 (initBD "A" "D")).done = false ∧
      ((stepBD gC2 (stepNBD gC2 4 (initBD "A" "D"))).done = true ↔
        ((stepNBD gC2 4 (initBD "A" "D")).best ≤
            minDist (stepNBD gC2 4 (initBD "A" "D")).queueF +
              minDist (stepNBD gC2 4 (initBD "A" "D")).queueB ∨
          ((stepNBD gC2 4 (initBD "A" "D")).queueF = [] ∧
            (stepNBD gC2 4 (initBD "A" "D")).queueB = []))) :=
  ⟨by unfold NonnegWeights; with_unfolding_all decide, by with_unfolding_all decide,
    c2_stop_criterion gC2 "A" "D" (by unfold NonnegWeights; with_unfolding_all decide) 4
      (by with_unfolding_all decide)⟩

end RouteServer

namespace RouteServer

theorem sortQueue_length (l : List QEntry) : (sortQueue l).length = l.length :=
  (sortQueue_perm l).length_eq

theorem sortQueue_ne_nil {l : List QEntry} (h : l ≠ []) :
    ∃ c rest, sortQueue l = c :: rest := by
  cases hs : sortQueue l with
  | nil =>
    exfalso
    apply h
    have := sortQueue_length l
    rw [hs] at this
    exact List.length_eq_zero.mp this.symm
  | cons c rest => exact ⟨c, rest, rfl⟩

theorem relaxOne_queue_len (cur tgt : NodeId) (w : ℚ) (d : DirState) :
    (relaxOne cur tgt w d).queue.length ≤ d.queue.length + 1 := by
  unfold relaxOne
  by_cases h : d.dist cur + (w : WithTop ℚ) < d.dist tgt <;> simp [h]

theorem relaxMany_queue_len (cur : NodeId) (l : List (NodeId × ℚ)) (d : DirState) :
    (relaxMany cur l d).queue.length ≤ d.queue.length + l.length := by
  induction l generalizing d with
  | nil => simp [relaxMany]
  | cons x xs ih =>
    have hunf : relaxMany cur (x :: xs) d = relaxMany cur xs (relaxOne cur x.1 x.2 d) :=
      rfl
    rw [hunf]
    calc (relaxMany cur xs (relaxOne cur x.1 x.2 d)).queue.length
        ≤ (relaxOne cur x.1 x.2 d).queue.length + xs.length := ih _
      _ ≤ d.queue.length + 1 + xs.length :=
          Nat.add_le_add_right (relaxOne_queue_len cur x.1 x.2 d) _
      _ = d.queue.length + (x :: xs).length := by simp [List.length_cons]; omega

theorem filter_notmem_cons {α : Type} [DecidableEq α] {c : α} {l : List α}
    (hc : c ∉ l) (vis : List α) :
    l.filter (fun u => u ∉ (c :: vis)) = l.filter (fun u => u ∉ vis) := by
  apply List.filter_congr
  intro x hx
  have hxc : x ≠ c := fun h => hc (h ▸ hx)
  exact decide_eq_decide.mpr (by simp [List.mem_cons, hxc])

theorem filterSum_cons {α : Type} [DecidableEq α] (f : α → Nat) :
    ∀ {l : List α}, l.Nodup → ∀ {c : α}, c ∈ l → ∀ (vis : List α), c ∉ vis →
      ((l.filter (fun u => u ∉ (c :: vis))).map f).sum + f c =
        ((l.filter (fun u => u ∉ vis)).map f).sum := by
  intro l
  induction l with
  | nil =>
    intro _ c hc
    cases hc
  | cons a t ih =>
    intro hnd c hc vis hcv
    rcases List.nodup_cons.mp hnd with ⟨hat, htnd⟩
    rcases List.mem_cons.mp hc with hac | hct
    · subst hac
      rw [List.filter_cons, List.filter_cons]
      rw [if_neg (by simp), if_pos (by simp [hcv])]
      rw [filter_notmem_cons hat vis]
      simp only [List.map_cons, List.sum_cons]
      omega
    · have hac : a ≠ c := fun h => hat (h ▸ hct)
      rw [List.filter_cons, List.filter_cons]
      by_cases hav : a ∈ vis
      · rw [if_neg (by simp [hav]), if_neg (by simp [hav])]
        exact ih htnd hct vis hcv
      · rw [if_pos (by simp [hav, hac]), if_pos (by simp [hav])]
        simp only [List.map_cons, List.sum_cons]
        have h4 := ih htnd hct vis hcv
        omega

theorem filterSum_mono {α : Type} [DecidableEq α] (f : α → Nat) (c : α) :
    ∀ (l : List α) (vis : List α),
      ((l.filter (fun u => u ∉ (c :: vis))).map f).sum ≤
        ((l.filter (fun u => u ∉ vis)).map f).sum := by
  intro l vis
  induction l with
  | nil => simp
  | cons a t ih =>
    rw [List.filter_cons, List.filter_cons]
    by_cases hav : a ∈ vis
    · rw [if_neg (by simp [hav]), if_neg (by simp [hav])]
      exact ih
    · by_cases hac : a = c
      · rw [if_neg (by simp [hac]), if_pos (by simp [hav])]
        simp only [List.map_cons, List.sum_cons]
        omega
      · rw [if_pos (by simp [hav, hac]), if_pos (by simp [hav])]
        simp only [List.map_cons, List.sum_cons]
        omega

theorem outBudget_cons_le (g : Graph) (c : NodeId) (vis : List NodeId) :
    outBudget g (c :: vis) ≤ outBudget g vis :=
  filterSum_mono _ c _ vis

theorem inBudget_cons_le (g : Graph) (c : NodeId) (vis : List NodeId) :
    inBudget g (c :: vis) ≤ inBudget g vis :=
  filterSum_mono _ c _ vis

theorem outBudget_cons_eq (g : Graph) {c : NodeId} (hc : c ∈ nodeIds g)
    {vis : List NodeId} (hcv : c ∉ vis) :
    outBudget g (c :: vis) + (adj g c).length = outBudget g vis :=
  filterSum_cons _ (List.nodup_dedup _) (List.mem_dedup.mpr hc) vis hcv

theorem inBudget_cons_eq (g : Graph) {c : NodeId} (hc : c ∈ nodeIds g)
    {vis : List NodeId} (hcv : c ∉ vis) :
    inBudget g (c :: vis) + (backPairs g c).length = inBudget g vis :=
  filterSum_cons _ (List.nodup_dedup _) (List.mem_dedup.mpr hc) vis hcv

theorem adj_ne_nil_mem {g : Graph} {cur : NodeId} (h : adj g cur ≠ []) :
    cur ∈ nodeIds g := by
  unfold adj at h
  cases hf : g.find? (fun p => p.1 = cur) with
  | none => rw [hf] at h; exact absurd rfl h
  | some p =>
    have hp : p ∈ g := List.mem_of_find?_eq_some hf
    have hpa : p.1 = cur := by
      have h2 := List.find?_some hf
      simpa using h2
    unfold nodeIds
    refine List.mem_append_left _ ?_
    rw [← hpa]
    exact List.mem_map_of_mem (fun q => q.1) hp

theorem backPairs_ne_nil_mem {g : Graph} {cur : NodeId}
    (h : backPairs g cur ≠ []) : cur ∈ nodeIds g := by
  rcases List.exists_mem_of_ne_nil _ h with ⟨x, hx⟩
  unfold backPairs at hx
  rcases List.mem_flatMap.mp hx with ⟨p, hp, hx2⟩
  rcases List.mem_map.mp hx2 with ⟨ed, hed, hex⟩
  have he2 : ed ∈ p.2 ∧ ed.node = cur := by
    have h3 := List.mem_filter.mp hed
    exact ⟨h3.1, by simpa using h3.2⟩
  unfold nodeIds
  refine List.mem_append_right _ ?_
  refine List.mem_flatMap.mpr ⟨p, hp, ?_⟩
  rw [← he2.2]
  exact List.mem_map_of_mem (fun e => e.node) he2.1

end RouteServer

namespace RouteServer

theorem stepForward_measure {g : Graph} {st : BDState} (hq : st.queueF ≠ []) :
    bdMeasure g (stepForward g st) < bdMeasure g st := by
  rcases sortQueue_ne_nil hq with ⟨c, rest, hsort⟩
  have hrlen : rest.length + 1 = st.queueF.length := by
    have h0 := sortQueue_length st.queueF
    rw [hsort] at h0
    simpa using h0
  by_cases hsk : c.node = "" ∨ c.node ∈ st.visitedF
  · rw [stepForward_eq_skip hsort hsk]
    unfold bdMeasure
    dsimp only
    omega
  · rw [stepForward_eq_settle hsort hsk]
    push_neg at hsk
    obtain ⟨hne, hnv⟩ := hsk
    have key : ∀ st2 : BDState, st2.queueF = rest →
        st2.visitedF = c.node :: st.visitedF → st2.queueB = st.queueB →
        st2.visitedB = st.visitedB →
        bdMeasure g (relaxF g c.node st2) < bdMeasure g st := by
      intro st2 h1 h2 h3 h4
      rcases relaxF_spec g c.node st2 with ⟨hF, hB, _, _, _⟩
      have hqlen : (relaxF g c.node st2).queueF.length ≤
          rest.length + (adj g c.node).length := by
        have hlen := relaxMany_queue_len c.node
          ((adj g c.node).map (fun e => (e.node, e.weight))) (projF st2)
        have hq1 : (relaxF g c.node st2).queueF.length =
            (relaxMany c.node ((adj g c.node).map (fun e => (e.node, e.weight)))
              (projF st2)).queue.length :=
          congrArg List.length (congrArg DirState.queue hF)
        rw [hq1]
        have hq2 : (projF st2).queue.length = rest.length := by
          show st2.queueF.length = rest.length
          rw [h1]
        rw [hq2, List.length_map] at hlen
        exact hlen
      have hv : (relaxF g c.node st2).visitedF = c.node :: st.visitedF := by
        have hv1 := congrArg DirState.visited hF
        rw [relaxMany_visited] at hv1
        have hv2 : (projF st2).visited = c.node :: st.visitedF := by
          show st2.visitedF = c.node :: st.visitedF
          exact h2
        rw [← hv2]
        exact hv1
      have hqB : (relaxF g c.node st2).queueB = st.queueB := by
        have hb1 := congrArg DirState.queue hB
        have hb2 : (projB st2).queue = st.queueB := by
          show st2.queueB = st.queueB
          exact h3
        rw [← hb2]
        exact hb1
      have hvB : (relaxF g c.node st2).visitedB = st.visitedB := by
        have hb1 := congrArg DirState.visited hB
        have hb2 : (projB st2).visited = st.visitedB := by
          show st2.visitedB = st.visitedB
          exact h4
        rw [← hb2]
        exact hb1
      unfold bdMeasure
      rw [hv, hqB, hvB]
      by_cases hadj : adj g c.node = []
      · have hqlen2 : (relaxF g c.node st2).queueF.length ≤ rest.length := by
          rw [hadj] at hqlen
          simpa using hqlen
        have hb := outBudget_cons_le g c.node st.visitedF
        omega
      · have hcmem := adj_ne_nil_mem hadj
        have hbeq := outBudget_cons_eq g hcmem hnv
        omega
    split
    · split
      · exact key _ rfl rfl rfl rfl
      · exact key _ rfl rfl rfl rfl
    · exact key _ rfl rfl rfl rfl

theorem stepBackward_measure {g : Graph} {st : BDState} (hq : st.queueB ≠ []) :
    bdMeasure g (stepBackward g st) < bdMeasure g st := by
  rcases sortQueue_ne_nil hq with ⟨c, rest, hsort⟩
  have hrlen : rest.length + 1 = st.queueB.length := by
    have h0 := sortQueue_length st.queueB
    rw [hsort] at h0
    simpa using h0
  by_cases hsk : c.node = "" ∨ c.node ∈ st.visitedB
  · rw [stepBackward_eq_skip hsort hsk]
    unfold bdMeasure
    dsimp only
    omega
  · rw [stepBackward_eq_settle hsort hsk]
    push_neg at hsk
    obtain ⟨hne, hnv⟩ := hsk
    have key : ∀ st2 : BDState, st2.queueB = rest →
        st2.visitedB = c.node :: st.visitedB → st2.queueF = st.queueF →
        st2.visitedF = st.visitedF →
        bdMeasure g (relaxB g c.node st2) < bdMeasure g st := by
      intro st2 h1 h2 h3 h4
      rcases relaxB_spec g c.node st2 with ⟨hB, hF, _, _, _⟩
      have hqlen : (relaxB g c.node st2).queueB.length ≤
          rest.length + (backPairs g c.node).length := by
        have hlen := relaxMany_queue_len c.node (backPairs g c.node) (projB st2)
        have hq1 : (relaxB g c.node st2).queueB.length =
            (relaxMany c.node (backPairs g c.node) (projB st2)).queue.length :=
          congrArg List.length (congrArg DirState.queue hB)
        rw [hq1]
        have hq2 : (projB st2).queue.length = rest.length := by
          show st2.queueB.length = rest.length
          rw [h1]
        rw [hq2] at hlen
        exact hlen
      have hv : (relaxB g c.node st2).visitedB = c.node :: st.visitedB := by
        have hv1 := congrArg DirState.visited hB
        rw [relaxMany_visited] at hv1
        have hv2 : (projB st2).visited = c.node :: st.visitedB := by
          show st2.visitedB = c.node :: st.visitedB
          exact h2
        rw [← hv2]
        exact hv1
      have hqF : (relaxB g c.node st2).queueF = st.queueF := by
        have hb1 := congrArg DirState.queue hF
        have hb2 : (projF st2).queue = st.queueF := by
          show st2.queueF = st.queueF
          exact h3
        rw [← hb2]
        exact hb1
      have hvF : (relaxB g c.node st2).visitedF = st.visitedF := by
        have hb1 := congrArg DirState.visited hF
        have hb2 : (projF st2).visited = st.visitedF := by
          show st2.visitedF = st.visitedF
          exact h4
        rw [← hb2]
        exact hb1
      unfold bdMeasure
      rw [hv, hqF, hvF]
      by_cases hbp : backPairs g c.node = []
      · have hqlen2 : (relaxB g c.node st2).queueB.length ≤ rest.length := by
          rw [hbp] at hqlen
          simpa using hqlen
        have hb := inBudget_cons_le g c.node st.visitedB
        omega
      · have hcmem := backPairs_ne_nil_mem hbp
        have hbeq := inBudget_cons_eq g hcmem hnv
        omega
    split
    · split
      · exact key _ rfl rfl rfl rfl
      · exact key _ rfl rfl rfl rfl
    · exact key _ rfl rfl rfl rfl

theorem stepBD_measure {g : Graph} {st : BDState} (hdone : st.done = false)
    (hnd : (stepBD g st).done = false) :
    bdMeasure g (stepBD g st) < bdMeasure g st := by
  unfold stepBD at hnd ⊢
  rw [if_neg (by simp [hdone])] at hnd ⊢
  by_cases hemp : st.queueF = [] ∧ st.queueB = []
  · rw [if_pos hemp] at hnd
    simp at hnd
  · rw [if_neg hemp] at hnd ⊢
    by_cases hbr : st.best ≤ headDist st.queueF + headDist st.queueB
    · rw [if_pos hbr] at hnd
      simp at hnd
    · rw [if_neg hbr] at hnd ⊢
      by_cases h4 : st.queueF ≠ [] ∧ headDist st.queueF ≤ headDist st.queueB
      · rw [if_pos h4] at hnd ⊢
        exact stepForward_measure h4.1
      · rw [if_neg h4] at hnd ⊢
        by_cases h5 : st.queueB ≠ []
        · rw [if_pos h5] at hnd ⊢
          exact stepBackward_measure h5
        · exfalso
          have hqB : st.queueB = [] := not_not.mp h5
          have hF : st.queueF = [] := by
            by_contra hF
            apply h4
            refine ⟨hF, ?_⟩
            have hBtop : headDist st.queueB = ⊤ := by
              rw [hqB]
              rfl
            rw [hBtop]
            exact le_top
          exact hemp ⟨hF, hqB⟩

theorem stepBD_done_eq {g : Graph} {st : BDState} (h : st.done = true) :
    stepBD g st = st := by
  unfold stepBD
  rw [if_pos h]

theorem stepNBD_done_stay {g : Graph} :
    ∀ (n : Nat) {st : BDState}, st.done = true → (stepNBD g n st).done = true := by
  intro n
  induction n with
  | zero => intro st h; exact h
  | succ k ih =>
    intro st h
    show (stepNBD g k (stepBD g st)).done = true
    rw [stepBD_done_eq h]
    exact ih h

theorem stepNBD_done_of_measure {g : Graph} :
    ∀ (n : Nat) (st : BDState), bdMeasure g st < n →
      (stepNBD g n st).done = true := by
  intro n
  induction n with
  | zero => intro st h; omega
  | succ k ih =>
    intro st h
    by_cases hd : st.done = true
    · exact stepNBD_done_stay (k + 1) hd
    · have hd2 : st.done = false := by
        revert hd
        cases st.done <;> simp
      by_cases hnd : (stepBD g st).done = true
      · show (stepNBD g k (stepBD g st)).done = true
        exact stepNBD_done_stay k hnd
      · have hnd2 : (stepBD g st).done = false := by
          revert hnd
          cases (stepBD g st).done <;> simp
        have hm := stepBD_measure hd2 hnd2
        show (stepNBD g k (stepBD g st)).done = true
        exact ih (stepBD g st) (by omega)

theorem bidiRun_done (g : Graph) (s e : NodeId) :
    (stepNBD g (bidiFuel g) (initBD s e)).done = true := by
  apply stepNBD_done_of_measure
  have h1 : (initBD s e).queueF.length = 1 := rfl
  have h2 : (initBD s e).queueB.length = 1 := rfl
  have h3 : (initBD s e).visitedF = [] := rfl
  have h4 : (initBD s e).visitedB = [] := rfl
  unfold bdMeasure bidiFuel
  rw [h1, h2, h3, h4]
  omega

end RouteServer

namespace RouteServer

/-- C1: refuted — on the graph `A → B (1)`, `C → A (10)`, `C → B (10)` the
query `C → B` is connected by the direct edge of weight `10`, and the
reference single-direction `dijkstra` returns distance `10`, but
`bidirectionalDijkstra` returns the path `C, A, B` with distance `11`: the
candidate `totalDistance` is only updated when a node has already been
settled by the opposite direction at the moment the current direction
settles it, so the optimal meeting point can be missed and a non-minimal
distance reported. -/
theorem c1_bidirectional_not_optimal :
    bidirectionalDijkstra gCex "C" "B" =
        ⟨["C", "A", "B"], ((11 : ℚ) : WithTop ℚ)⟩ ∧
      dijkstra gCex "C" "B" = ⟨["C", "B"], ((10 : ℚ) : WithTop ℚ)⟩ ∧
      WalkCost gCex ["C", "B"] 10 ∧
      (bidirectionalDijkstra gCex "C" "B").distance ≠
        (dijkstra gCex "C" "B").distance := by
  refine ⟨by with_unfolding_all decide, by with_unfolding_all decide, ?_,
    by with_unfolding_all decide⟩
  have h : WalkCost gCex ["C", "B"] (10 + 0) :=
    .cons ⟨[⟨"A", 10⟩, ⟨"B", 10⟩], by with_unfolding_all decide,
      by with_unfolding_all decide⟩ (.single "B")
  simpa using h

theorem c3_reconstruction_invariants_witness :
    (bidirectionalDijkstra gCex "C" "B").path.head? = some "C" ∧
      (bidirectionalDijkstra gCex "C" "B").path.getLast? = some "B" ∧
      (∃ m, (bidiFinal gCex "C" "B").meeting = some m ∧
        (bidirectionalDijkstra gCex "C" "B").path.count m = 1) ∧
      ∃ c : ℚ, WalkCost gCex (bidirectionalDijkstra gCex "C" "B").path c ∧
        (bidirectionalDijkstra gCex "C" "B").distance = (c : WithTop ℚ) :=
  c3_reconstruction_invariants gCex "C" "B"
    (by unfold NonnegWeights; with_unfolding_all decide)
    (by decide)
    (by with_unfolding_all decide)
    (by with_unfolding_all decide)

/-- C4: confirmed — for every graph and every id, a query with equal start
and end returns the single-node path with distance `0` before the loop is
entered: no queue entry is ever shifted and no neighbour is ever relaxed,
in `bidirectionalDijkstra` and in the single-direction `dijkstra` alike. -/
theorem c4_same_endpoint_trivial (g : Graph) (x : NodeId) :
    bidirectionalDijkstra g x x = ⟨[x], 0⟩ ∧
      bidiSearchStats g x x = (0, 0) ∧
      dijkstra g x x = ⟨[x], 0⟩ ∧
      dijkstraSearchStats g x x = 0 := by
  refine ⟨?_, ?_, ?_, ?_⟩
  · unfold bidirectionalDijkstra
    rw [if_pos rfl]
  · unfold bidiSearchStats
    rw [if_pos rfl]
  · unfold dijkstra
    rw [if_pos rfl]
  · unfold dijkstraSearchStats
    rw [if_pos rfl]

end RouteServer

namespace RouteServer

theorem findNearestNode_falsy (d : JSNode → ℚ) (nodes : List JSNode)
    {excl : Option JSId} (h : optTruthy excl = false) :
    findNearestNode d nodes excl = findNearestNode d nodes none := by
  unfold findNearestNode
  congr 1
  apply List.foldl_ext
  intro acc node hn
  have h1 : ¬(optTruthy excl = true ∧ jsIdStr node.id = jsOptStr excl) := by
    simp [h]
  have h2 : ¬(optTruthy (none : Option JSId) = true ∧
      jsIdStr node.id = jsOptStr (none : Option JSId)) := by
    simp [optTruthy]
  rw [if_neg h1, if_neg h2]

theorem findNearestNode_truthy_aux (d : JSNode → ℚ) {excl : Option JSId}
    (h : optTruthy excl = true) :
    ∀ (nodes : List JSNode) (acc : WithTop ℚ × Option JSId),
      nodes.foldl
        (fun acc node =>
          if optTruthy excl ∧ jsIdStr node.id = jsOptStr excl then acc
          else if (d node : WithTop ℚ) < acc.1 then
            ((d node : WithTop ℚ), some node.id)
          else acc) acc =
      (nodes.filter (fun n => jsIdStr n.id ≠ jsOptStr excl)).foldl
        (fun acc node =>
          if optTruthy (none : Option JSId) ∧
              jsIdStr node.id = jsOptStr (none : Option JSId) then acc
          else if (d node : WithTop ℚ) < acc.1 then
            ((d node : WithTop ℚ), some node.id)
          else acc) acc := by
  intro nodes
  induction nodes with
  | nil => intro acc; rfl
  | cons a t ih =>
    intro acc
    by_cases hm : jsIdStr a.id = jsOptStr excl
    · have h2 : ¬(decide (jsIdStr a.id ≠ jsOptStr excl) = true) := by simp [hm]
      rw [List.foldl_cons, if_pos ⟨h, hm⟩, List.filter_cons, if_neg h2]
      exact ih acc
    · have h1 : ¬(optTruthy excl = true ∧ jsIdStr a.id = jsOptStr excl) := by
        simp [hm]
      have h2 : decide (jsIdStr a.id ≠ jsOptStr excl) = true := by simp [hm]
      have h3 : ¬(optTruthy (none : Option JSId) = true ∧
          jsIdStr a.id = jsOptStr (none : Option JSId)) := by
        simp [optTruthy]
      rw [List.foldl_cons, if_neg h1, List.filter_cons, if_pos h2,
        List.foldl_cons, if_neg h3]
      exact ih _

/-- C10 (amended): a falsy `excludeNodeId` (null, undefined, `0`, the empty
string) excludes nothing: the scan is identical to the scan with no
exclusion, so in particular the retry that excludes a null start snap
excludes nothing.  A truthy `excludeNodeId` skips exactly the nodes whose
`String(id)` equals `String(excludeNodeId)`.  However, a node whose raw id
is the number `0` CAN be excluded, by the truthy string `"0"` whose
coercion collides with `String(0)` (see the counterexample), so the
original claim that a node with falsy id can never be excluded is wrong. -/
theorem c10_exclusion_semantics (d : JSNode → ℚ) (nodes : List JSNode)
    (excl : Option JSId) :
    (optTruthy excl = false →
      findNearestNode d nodes excl = findNearestNode d nodes none) ∧
    (optTruthy excl = true →
      findNearestNode d nodes excl =
        findNearestNode d
          (nodes.filter (fun n => jsIdStr n.id ≠ jsOptStr excl)) none) := by
  constructor
  · intro h
    exact findNearestNode_falsy d nodes h
  · intro h
    unfold findNearestNode
    rw [findNearestNode_truthy_aux d h nodes]

/-- C10 counterexample: the scanned list holds one node whose raw id is the
number `0` (falsy); with `excludeNodeId = "0"` (truthy) the node is skipped
because `String(0) === String("0")`, and the scan returns null, while with
no exclusion the same node is returned — a node with falsy id can be
excluded. -/
theorem c10_counterexample :
    jsIdTruthy (.num 0) = false ∧
      findNearestNode (fun _ => 1) [⟨.num 0, 0, 0⟩] (some (.str "0")) = none ∧
      findNearestNode (fun _ => 1) [⟨.num 0, 0, 0⟩] none = some (.num 0) := by
  with_unfolding_all decide

theorem c10_exclusion_semantics_witness :
    findNearestNode (fun _ => 1) [⟨.num 0, 0, 0⟩] (some (.str "")) =
      findNearestNode (fun _ => 1) [⟨.num 0, 0, 0⟩] none ∧
    findNearestNode (fun _ => 1) [⟨.num 0, 0, 0⟩] (some (.str "0")) =
      findNearestNode (fun _ => 1)
        (List.filter (fun n => decide (jsIdStr n.id ≠ jsOptStr (some (.str "0"))))
          [⟨.num 0, 0, 0⟩]) none :=
  ⟨(c10_exclusion_semantics (fun _ => 1) [⟨.num 0, 0, 0⟩] (some (.str ""))).1
      (by decide),
    (c10_exclusion_semantics (fun _ => 1) [⟨.num 0, 0, 0⟩] (some (.str "0"))).2
      (by decide)⟩

end RouteServer

namespace RouteServer

/-- C5 (amended): with an empty routable node set no node survives
filtering, and `findNearestNode` on the empty candidate list returns null
for both endpoints; but `/calculate_route` then fails with the `tooClose`
error ("points too close"), not with `noNearbyNode`: both snaps are null,
`String(null) === String(null)` makes the identical-snap comparison true,
and that comparison precedes the falsy-snap check that would report
`noNearbyNode`. -/
theorem c5_empty_routable (re : RawGraph) (allNodes : List JSNode)
    (edges : Graph) (dS dE : JSNode → ℚ) (sL eL : GPSData)
    (dev : Option DeviceInfo) (hemp : routableNodeIds re = []) :
    filterRoutableNodes allNodes re = [] ∧
    findNearestNode dS (filterRoutableNodes allNodes re) none = none ∧
    findNearestNode dE (filterRoutableNodes allNodes re) none = none ∧
    calculateRouteP2 (filterRoutableNodes allNodes re) edges dS dE sL eL dev =
      ⟨false, [], some RouteError.tooClose, none⟩ := by
  have hf : filterRoutableNodes allNodes re = [] := by
    unfold filterRoutableNodes
    rw [hemp]
    simp
  refine ⟨hf, ?_, ?_, ?_⟩ <;> rw [hf] <;> rfl

/-- C5 counterexample: one node, no edge data, so the routable set is empty
and nothing survives filtering; both snaps are null, and the handler
reports `tooClose`, not the `noNearbyNode` error the claim requires. -/
theorem c5_counterexample :
    routableNodeIds ([] : RawGraph) = [] ∧
      calculateRouteP2 (filterRoutableNodes [⟨.str "A", 0, 0⟩] []) []
        (fun _ => 0) (fun _ => 0) ⟨none, none, none⟩ ⟨none, none, none⟩ none =
        ⟨false, [], some RouteError.tooClose, none⟩ ∧
      RouteError.tooClose ≠ RouteError.noNearbyNode := by
  with_unfolding_all decide

theorem c5_empty_routable_witness :
    filterRoutableNodes [⟨.str "A", 0, 0⟩] ([] : RawGraph) = [] ∧
    findNearestNode (fun _ => 0)
      (filterRoutableNodes [⟨.str "A", 0, 0⟩] ([] : RawGraph)) none = none ∧
    findNearestNode (fun _ => 1)
      (filterRoutableNodes [⟨.str "A", 0, 0⟩] ([] : RawGraph)) none = none ∧
    calculateRouteP2 (filterRoutableNodes [⟨.str "A", 0, 0⟩] ([] : RawGraph))
      [] (fun _ => 0) (fun _ => 1) ⟨none, none, none⟩ ⟨none, none, none⟩
      none = ⟨false, [], some RouteError.tooClose, none⟩ :=
  c5_empty_routable [] [⟨.str "A", 0, 0⟩] [] (fun _ => 0) (fun _ => 1)
    ⟨none, none, none⟩ ⟨none, none, none⟩ none rfl

end RouteServer

namespace RouteServer

/-- C6 (amended): the path acceptance boundary of the `/calculate_route`
handlers of `part_000`, `part_001` and `part_002` is exactly "the path is
non-empty" — an empty path fails and any non-empty path, including a
single-node path, is accepted — and in the `part_002` handler, once the
search is reached (distinct, truthy snaps), the success flag equals that
acceptance and a rejection reports the `noRoute` error.  The `src/index.js`
variant, however, also rejects single-node paths: its check
`path.length <= 1` accepts exactly the paths of length at least two, so the
corrected boundary does NOT hold in every server variant. -/
theorem c6_path_acceptance (r : BDResult) (nodes : List JSNode)
    (edges : Graph) (dS dE : JSNode → ℚ) (sL eL : GPSData)
    (dev : Option DeviceInfo)
    (hdiff : jsOptStr (findNearestNode dS nodes none) ≠
      jsOptStr (findNearestNode dE nodes none))
    (hts : optTruthy (findNearestNode dS nodes none) = true)
    (hte : optTruthy (findNearestNode dE nodes none) = true) :
    (routeAcceptsP0 r = true ↔ r.path ≠ []) ∧
    (routeAcceptsP1 r = true ↔ r.path ≠ []) ∧
    (routeAcceptsP2 r = true ↔ r.path ≠ []) ∧
    (routeAcceptsIndex r = true ↔ 2 ≤ r.path.length) ∧
    (calculateRouteP2 nodes edges dS dE sL eL dev).success =
      routeAcceptsP2 (bidirectionalDijkstra edges
        (jsOptStr (findNearestNode dS nodes none))
        (jsOptStr (findNearestNode dE nodes none))) ∧
    (routeAcceptsP2 (bidirectionalDijkstra edges
        (jsOptStr (findNearestNode dS nodes none))
        (jsOptStr (findNearestNode dE nodes none))) = false →
      (calculateRouteP2 nodes edges dS dE sL eL dev).error =
        some RouteError.noRoute) := by
  have hhandler : (calculateRouteP2 nodes edges dS dE sL eL dev).success =
      routeAcceptsP2 (bidirectionalDijkstra edges
        (jsOptStr (findNearestNode dS nodes none))
        (jsOptStr (findNearestNode dE nodes none))) ∧
      (routeAcceptsP2 (bidirectionalDijkstra edges
          (jsOptStr (findNearestNode dS nodes none))
          (jsOptStr (findNearestNode dE nodes none))) = false →
        (calculateRouteP2 nodes edges dS dE sL eL dev).error =
          some RouteError.noRoute) := by
    have hfal : ¬(optTruthy (findNearestNode dS nodes none) = false ∨
        optTruthy (findNearestNode dE nodes none) = false) := by
      simp [hts, hte]
    simp only [calculateRouteP2]
    rw [if_neg hdiff, if_neg hdiff, if_neg hfal]
    by_cases hlen : (bidirectionalDijkstra edges
        (jsOptStr (findNearestNode dS nodes none))
        (jsOptStr (findNearestNode dE nodes none))).path.length < 1
    · rw [if_pos hlen]
      have hacc : routeAcceptsP2 (bidirectionalDijkstra edges
          (jsOptStr (findNearestNode dS nodes none))
          (jsOptStr (findNearestNode dE nodes none))) = false := by
        unfold routeAcceptsP2
        simpa using hlen
      exact ⟨by rw [hacc], fun _ => rfl⟩
    · rw [if_neg hlen]
      have hacc : routeAcceptsP2 (bidirectionalDijkstra edges
          (jsOptStr (findNearestNode dS nodes none))
          (jsOptStr (findNearestNode dE nodes none))) = true := by
        unfold routeAcceptsP2
        simpa using Nat.le_of_not_lt hlen
      refine ⟨by rw [hacc], fun hcon => ?_⟩
      rw [hacc] at hcon
      cases hcon
  refine ⟨?_, ?_, ?_, ?_, hhandler.1, hhandler.2⟩
  · unfold routeAcceptsP0
    simp [List.length_eq_zero]
  · unfold routeAcceptsP1
    simp [Nat.one_le_iff_ne_zero, List.length_eq_zero]
  · unfold routeAcceptsP2
    simp [Nat.one_le_iff_ne_zero, List.length_eq_zero]
  · unfold routeAcceptsIndex
    simp

/-- C6 counterexample: the single-node path of the same-start-end case is
accepted by the `part_000`, `part_001` and `part_002` handlers but rejected
by the `src/index.js` handler, whose check `path.length <= 1` fails it. -/
theorem c6_counterexample :
    routeAcceptsP0 ⟨["A"], 0⟩ = true ∧ routeAcceptsP1 ⟨["A"], 0⟩ = true ∧
      routeAcceptsP2 ⟨["A"], 0⟩ = true ∧
      routeAcceptsIndex ⟨["A"], 0⟩ = false := by
  with_unfolding_all decide

end RouteServer

namespace RouteServer

theorem c6_path_acceptance_witness :
    (routeAcceptsP0 ⟨["A"], 0⟩ = true ↔ (["A"] : List NodeId) ≠ []) ∧
    (routeAcceptsP1 ⟨["A"], 0⟩ = true ↔ (["A"] : List NodeId) ≠ []) ∧
    (routeAcceptsP2 ⟨["A"], 0⟩ = true ↔ (["A"] : List NodeId) ≠ []) ∧
    (routeAcceptsIndex ⟨["A"], 0⟩ = true ↔ 2 ≤ (["A"] : List NodeId).length) ∧
    (calculateRouteP2 [⟨.str "A", 1, 1⟩, ⟨.str "C", 2, 2⟩, ⟨.str "B", 3, 3⟩]
        gCex (fun n => if n.id = .str "C" then 0 else 5)
        (fun n => if n.id = .str "B" then 0 else 5)
        ⟨none, none, none⟩ ⟨none, none, none⟩ none).success =
      routeAcceptsP2 (bidirectionalDijkstra gCex
        (jsOptStr (findNearestNode (fun n => if n.id = .str "C" then 0 else 5)
          [⟨.str "A", 1, 1⟩, ⟨.str "C", 2, 2⟩, ⟨.str "B", 3, 3⟩] none))
        (jsOptStr (findNearestNode (fun n => if n.id = .str "B" then 0 else 5)
          [⟨.str "A", 1, 1⟩, ⟨.str "C", 2, 2⟩, ⟨.str "B", 3, 3⟩] none))) ∧
    (routeAcceptsP2 (bidirectionalDijkstra gCex
        (jsOptStr (findNearestNode (fun n => if n.id = .str "C" then 0 else 5)
          [⟨.str "A", 1, 1⟩, ⟨.str "C", 2, 2⟩, ⟨.str "B", 3, 3⟩] none))
        (jsOptStr (findNearestNode (fun n => if n.id = .str "B" then 0 else 5)
          [⟨.str "A", 1, 1⟩, ⟨.str "C", 2, 2⟩, ⟨.str "B", 3, 3⟩] none))) =
        false →
      (calculateRouteP2 [⟨.str "A", 1, 1⟩, ⟨.str "C", 2, 2⟩, ⟨.str "B", 3, 3⟩]
        gCex (fun n => if n.id = .str "C" then 0 else 5)
        (fun n => if n.id = .str "B" then 0 else 5)
        ⟨none, none, none⟩ ⟨none, none, none⟩ none).error =
        some RouteError.noRoute) :=
  c6_path_acceptance ⟨["A"], 0⟩
    [⟨.str "A", 1, 1⟩, ⟨.str "C", 2, 2⟩, ⟨.str "B", 3, 3⟩] gCex
    (fun n => if n.id = .str "C" then 0 else 5)
    (fun n => if n.id = .str "B" then 0 else 5)
    ⟨none, none, none⟩ ⟨none, none, none⟩ none
    (by with_unfolding_all decide) (by with_unfolding_all decide)
    (by with_unfolding_all decide)

end RouteServer

namespace RouteServer

theorem findNearestNode_mem_aux (d : JSNode → ℚ) (excl : Option JSId) :
    ∀ (nodes : List JSNode) (acc : WithTop ℚ × Option JSId) (i : JSId),
      (nodes.foldl
        (fun acc node =>
          if optTruthy excl ∧ jsIdStr node.id = jsOptStr excl then acc
          else if (d node : WithTop ℚ) < acc.1 then
            ((d node : WithTop ℚ), some node.id)
          else acc) acc).2 = some i →
      acc.2 = some i ∨ ∃ n ∈ nodes, n.id = i := by
  intro nodes
  induction nodes with
  | nil => intro acc i h; exact Or.inl h
  | cons a t ih =>
    intro acc i h
    rw [List.foldl_cons] at h
    rcases ih _ i h with h2 | h2
    · by_cases hc1 : optTruthy excl ∧ jsIdStr a.id = jsOptStr excl
      · rw [if_pos hc1] at h2
        exact Or.inl h2
      · rw [if_neg hc1] at h2
        by_cases hc2 : (d a : WithTop ℚ) < acc.1
        · rw [if_pos hc2] at h2
          simp only [Option.some.injEq] at h2
          exact Or.inr ⟨a, List.mem_cons_self a t, h2⟩
        · rw [if_neg hc2] at h2
          exact Or.inl h2
    · rcases h2 with ⟨n, hn, hni⟩
      exact Or.inr ⟨n, List.mem_cons_of_mem a hn, hni⟩

theorem findNearestNode_mem {d : JSNode → ℚ} {nodes : List JSNode}
    {excl : Option JSId} {i : JSId}
    (h : findNearestNode d nodes excl = some i) :
    ∃ n ∈ nodes, n.id = i := by
  unfold findNearestNode at h
  rcases findNearestNode_mem_aux d excl nodes _ i h with h2 | h2
  · simp at h2
  · exact h2

theorem mem_routableNodeIds {re : RawGraph} {x : String} :
    x ∈ routableNodeIds re ↔ InRoutableSet re x := by
  unfold routableNodeIds InRoutableSet
  simp only [List.mem_flatMap, List.mem_cons, List.mem_map]
  constructor
  · rintro ⟨p, hp, rfl | ⟨e, he, hee⟩⟩
    · exact Or.inl ⟨p, hp, rfl⟩
    · exact Or.inr ⟨p, hp, e, he, hee⟩
  · rintro (⟨p, hp, hpe⟩ | ⟨p, hp, e, he, hee⟩)
    · exact ⟨p, hp, Or.inl hpe.symm⟩
    · exact ⟨p, hp, Or.inr ⟨e, he, hee⟩⟩

/-- C7: confirmed — graph construction retains exactly those nodes whose
canonical string id occurs in the routable id set (an edge-source key or the
canonical form of some edge destination), and whichever node the locator
returns when scanning the filtered pool is a retained node, hence one whose
id lies in that set: the locator can never snap to a node with no
connectivity. -/
theorem c7_routable_filter (allNodes : List JSNode) (re : RawGraph) :
    (∀ n : JSNode, n ∈ filterRoutableNodes allNodes re ↔
      n ∈ allNodes ∧ InRoutableSet re (jsIdStr n.id)) ∧
    (∀ (d : JSNode → ℚ) (excl : Option JSId) (i : JSId),
      findNearestNode d (filterRoutableNodes allNodes re) excl = some i →
      ∃ n ∈ allNodes, n.id = i ∧ InRoutableSet re (jsIdStr n.id)) := by
  constructor
  · intro n
    unfold filterRoutableNodes
    rw [List.mem_filter]
    constructor
    · rintro ⟨h1, h2⟩
      exact ⟨h1, mem_routableNodeIds.mp (by simpa using h2)⟩
    · rintro ⟨h1, h2⟩
      exact ⟨h1, by simpa using mem_routableNodeIds.mpr h2⟩
  · intro d excl i h
    rcases findNearestNode_mem h with ⟨n, hn, hni⟩
    unfold filterRoutableNodes at hn
    rw [List.mem_filter] at hn
    exact ⟨n, hn.1, hni, mem_routableNodeIds.mp (by simpa using hn.2)⟩

theorem c7_routable_filter_witness :
    ((⟨.str "A", 0, 0⟩ : JSNode) ∈
      filterRoutableNodes [⟨.str "A", 0, 0⟩, ⟨.str "X", 5, 5⟩]
        [("A", [⟨.str "B", 1⟩])] ↔
      (⟨.str "A", 0, 0⟩ : JSNode) ∈
        ([⟨.str "A", 0, 0⟩, ⟨.str "X", 5, 5⟩] : List JSNode) ∧
        InRoutableSet [("A", [⟨.str "B", 1⟩])] (jsIdStr (JSId.str "A"))) ∧
    ∃ n ∈ ([⟨.str "A", 0, 0⟩, ⟨.str "X", 5, 5⟩] : List JSNode),
      n.id = JSId.str "A" ∧
      InRoutableSet [("A", [⟨.str "B", 1⟩])] (jsIdStr n.id) :=
  ⟨(c7_routable_filter [⟨.str "A", 0, 0⟩, ⟨.str "X", 5, 5⟩]
      [("A", [⟨.str "B", 1⟩])]).1 ⟨.str "A", 0, 0⟩,
    (c7_routable_filter [⟨.str "A", 0, 0⟩, ⟨.str "X", 5, 5⟩]
      [("A", [⟨.str "B", 1⟩])]).2 (fun _ => 1) none (.str "A")
      (by with_unfolding_all decide)⟩

end RouteServer

namespace RouteServer

theorem gps_confidence_bounds (loc : GPSData) :
    0 ≤ (detectIndoorFromGPS loc).confidence ∧
      (detectIndoorFromGPS loc).confidence ≤ 500 / 3 := by
  unfold detectIndoorFromGPS
  refine ⟨?_, ?_⟩ <;> (dsimp only; split_ifs <;> norm_num)

theorem wifi_confidence_bounds (w : Option WifiData) :
    0 ≤ (analyzeWiFiNetworks w).confidence ∧
      (analyzeWiFiNetworks w).confidence ≤ 150 := by
  unfold analyzeWiFiNetworks
  rcases w with _ | wd
  · norm_num
  · rcases wd with ⟨_ | nets⟩
    · norm_num
    · refine ⟨?_, ?_⟩ <;> (dsimp only; split_ifs <;> norm_num)

theorem cellular_confidence_bounds (c : Option CellularData) :
    0 ≤ (analyzeCellularNetwork c).confidence ∧
      (analyzeCellularNetwork c).confidence ≤ 400 / 3 := by
  unfold analyzeCellularNetwork
  rcases c with _ | cd
  · norm_num
  · refine ⟨?_, ?_⟩ <;> (dsimp only; split_ifs <;> norm_num)

set_option maxHeartbeats 2000000 in
theorem comprehensive_confidence_bounds (loc : GPSData)
    (dev : Option DeviceInfo) :
    0 ≤ (comprehensiveIndoorDetection loc dev).confidence ∧
      (comprehensiveIndoorDetection loc dev).confidence ≤ 500 / 3 := by
  have hg := gps_confidence_bounds loc
  have hw := wifi_confidence_bounds (dev.bind (fun x => x.wifi))
  have hc := cellular_confidence_bounds (dev.bind (fun x => x.cellular))
  unfold comprehensiveIndoorDetection
  refine ⟨?_, ?_⟩ <;>
    (dsimp only;
     split_ifs <;> (try dsimp only) <;>
       linarith [hg.1, hg.2, hw.1, hw.2, hc.1, hc.2])

end RouteServer

namespace RouteServer

/-- C8 (amended): the confidence of every detector is a nonnegative
rational, but it is NOT bounded by 100: `detectIndoorFromGPS` reaches
`500/3 ≈ 166.7` (indoor score `5` over `totalChecks = 3`, since the
accuracy check alone contributes `3`), `analyzeWiFiNetworks` reaches up to
`150`, `analyzeCellularNetwork` up to `400/3`, and
`comprehensiveIndoorDetection` — the mean of the participating component
confidences — up to `500/3`; these bounds are tight for the GPS detector
and the comprehensive detector (see the counterexample). -/
theorem c8_confidence_bounds (loc : GPSData) (w : Option WifiData)
    (c : Option CellularData) (dev : Option DeviceInfo) :
    (0 ≤ (detectIndoorFromGPS loc).confidence ∧
      (detectIndoorFromGPS loc).confidence ≤ 500 / 3) ∧
    (0 ≤ (analyzeWiFiNetworks w).confidence ∧
      (analyzeWiFiNetworks w).confidence ≤ 150) ∧
    (0 ≤ (analyzeCellularNetwork c).confidence ∧
      (analyzeCellularNetwork c).confidence ≤ 400 / 3) ∧
    (0 ≤ (comprehensiveIndoorDetection loc dev).confidence ∧
      (comprehensiveIndoorDetection loc dev).confidence ≤ 500 / 3) :=
  ⟨gps_confidence_bounds loc, wifi_confidence_bounds w,
    cellular_confidence_bounds c, comprehensive_confidence_bounds loc dev⟩

/-- C8 counterexample: a location with no accuracy, altitude or speed (the
usual request payload) earns the full GPS indoor score `5` of `3` checks,
so `detectIndoorFromGPS` reports confidence `500/3 > 100`, and with no
device data the comprehensive classification consists of that single
component and reports the same out-of-range confidence. -/
theorem c8_counterexample :
    (detectIndoorFromGPS ⟨none, none, none⟩).confidence = 500 / 3 ∧
      (comprehensiveIndoorDetection ⟨none, none, none⟩ none).confidence =
        500 / 3 ∧
      ¬((500 : ℚ) / 3 ≤ 100) := by
  with_unfolding_all decide

/-- C9: confirmed — for a fixed graph, node list and query coordinates, two
runs of the `/calculate_route` handler that differ only in the `deviceInfo`
payload (any two values, including an absent one) produce the same success
flag, the same route coordinate list and the same failure reason: the
indoor classification is computed from `deviceInfo` but only ever feeds the
advisory `indoorInfo` metadata of a successful response, never the routing
decision. -/
theorem c9_indoor_noninterference (nodes : List JSNode) (edges : Graph)
    (dS dE : JSNode → ℚ) (sL eL : GPSData) (d1 d2 : Option DeviceInfo) :
    (calculateRouteP2 nodes edges dS dE sL eL d1).success =
        (calculateRouteP2 nodes edges dS dE sL eL d2).success ∧
      (calculateRouteP2 nodes edges dS dE sL eL d1).route =
        (calculateRouteP2 nodes edges dS dE sL eL d2).route ∧
      (calculateRouteP2 nodes edges dS dE sL eL d1).error =
        (calculateRouteP2 nodes edges dS dE sL eL d2).error := by
  unfold calculateRouteP2
  dsimp only
  split_ifs <;> exact ⟨rfl, rfl, rfl⟩

end RouteServer
